import Mathlib

/-! # redis_monitor: a shallow embedding of the monitor client

The development follows the three source files:

* `hset.go`  : `KeyVal`, `saveHashKind`
* `geo.go`   : `GeoVal`, `saveGeoKind`
* `main.go`  : `CommandInfo`, `Stats`, `NewStats`, `Stats.Clean`, `Stats.Increment`,
  `renderStats`, `extractCommandName`, `saveCommandValue` and the body of the read loop of
  `processCommands`.

Go strings are byte sequences, and every index the program computes on them is a byte
index, so a string is a list of bytes here.  A pointer `*CommandInfo` is an index into
the list of allocated records.  `fmt.Println` output is modelled by the value printed.
The library routines `sort.Sort` and `strings.ToUpper` are parameters of `renderStats`.
-/

namespace RedisMonitor

/-! ## Go strings -/

/-- One byte of a Go string. -/
abbrev Byte := Fin 256

/-- A Go string: its bytes in order. -/
abbrev GoString := List Byte

/-- The bytes of an ASCII literal. -/
def ascii (s : String) : GoString := s.data.map (fun c => Fin.ofNat c.toNat)

/-- The byte `]`. -/
def rbracket : Byte := 93

/-- The byte `"`. -/
def dquote : Byte := 34

/-- The space byte, the separator given to `strings.Split`. -/
def space : Byte := 32

/-! ## hset.go -/

/-- The struct `KeyVal`. -/
structure KeyVal where
  Key : GoString
  Val : GoString
deriving DecidableEq, Repr

/-- The struct `GeoVal`. -/
structure GeoVal where
  Long : GoString
  Lat : GoString
  Member : GoString
deriving DecidableEq, Repr

/-- What a `fmt.Println` call of the argument dispatch prints: the values handed to it. -/
inductive Printed where
  | hash (key : GoString) (vals : List KeyVal)
  | geo (key : GoString) (vals : List GeoVal)
  | set (base key : GoString) (val : List GoString)
  | word (w : GoString)
deriving DecidableEq, Repr

/-- The `for _, k := range values` loop of `saveHashKind`.  `n` is `len(values)`, the list
is the part of `values` still to be visited, `i`, `lastStruct` and `vals` are the loop
variables.  The result is `some vals` when the loop reaches its `fmt.Println(key, vals)`
and `none` when the range ends without printing. -/
def saveHashKindLoop (n : Nat) : List GoString → Nat → KeyVal → List KeyVal → Option (List KeyVal)
  | [], _, _, _ => none
  | k :: rest, i, lastStruct, vals =>
    let lastStruct1 : KeyVal := if i % 2 ≠ 0 then { lastStruct with Val := k } else { Key := k, Val := [] }
    let vals1 : List KeyVal := if i % 2 ≠ 0 then vals ++ [lastStruct1] else vals
    if n = i + 1 then some vals1 else saveHashKindLoop n rest (i + 1) lastStruct1 vals1

/-- The function `saveHashKind(key, values)`: the lines it prints. -/
def saveHashKind (key : GoString) (values : List GoString) : List Printed :=
  match saveHashKindLoop values.length values 0 { Key := [], Val := [] } [] with
  | some vals => [Printed.hash key vals]
  | none => []

/-! ## geo.go -/

/-- The `for _, k := range values` loop of `saveGeoKind`, with loop variables `i`,
`lastStruct`, `first` and `vals`; `n` is `len(values)`. -/
def saveGeoKindLoop (n : Nat) :
    List GoString → Nat → GeoVal → Bool → List GeoVal → Option (List GeoVal)
  | [], _, _, _, _ => none
  | k :: rest, i, lastStruct, first, vals =>
    let lastStruct1 : GeoVal :=
      if i % 3 = 0 then { Long := k, Lat := [], Member := [] }
      else if first then { lastStruct with Lat := k }
      else { lastStruct with Member := k }
    let first1 : Bool := if i % 3 = 0 then true else if first then false else first
    let vals1 : List GeoVal :=
      if i % 3 = 0 then vals else if first then vals else vals ++ [lastStruct1]
    if n + 3 = i + 1 then some vals1 else saveGeoKindLoop n rest (i + 1) lastStruct1 first1 vals1

/-- The function `saveGeoKind(key, values)`: the lines it prints. -/
def saveGeoKind (key : GoString) (values : List GoString) : List Printed :=
  match saveGeoKindLoop values.length values 3 { Long := [], Lat := [], Member := [] } false [] with
  | some vals => [Printed.geo key vals]
  | none => []

/-- Consecutive pairs of a token list; a trailing single token is left out. -/
def pairsOf : List GoString → List KeyVal
  | a :: b :: rest => { Key := a, Val := b } :: pairsOf rest
  | _ => []

/-- Consecutive triples of a token list; trailing tokens short of a triple are left out. -/
def triplesOf : List GoString → List GeoVal
  | a :: b :: c :: rest => { Long := a, Lat := b, Member := c } :: triplesOf rest
  | _ => []

/-! ## main.go: the line decoder and the argument dispatch -/

/-- Index of the first byte of `s` equal to `b`, if there is one. -/
def indexByte : GoString → Byte → Option Nat
  | [], _ => none
  | c :: cs, b => if c = b then some 0 else (indexByte cs b).map (fun i => i + 1)

/-- The call `strings.IndexRune(s, r)` for a one-byte rune `r`: the byte index of its first
occurrence, `-1` when it does not occur. -/
def IndexRune (s : GoString) (b : Byte) : Int :=
  match indexByte s b with
  | some i => (i : Int)
  | none => -1

/-- The slice expression `s[lo:]`; `none` is the run-time panic "slice bounds out of
range". -/
def sliceFrom (s : GoString) (lo : Int) : Option GoString :=
  if 0 ≤ lo ∧ lo ≤ (s.length : Int) then some (s.drop lo.toNat) else none

/-- The slice expression `s[lo:hi]`; `none` is the run-time panic. -/
def sliceRange (s : GoString) (lo hi : Int) : Option GoString :=
  if 0 ≤ lo ∧ lo ≤ hi ∧ hi ≤ (s.length : Int) then some ((s.take hi.toNat).drop lo.toNat)
  else none

/-- The call `strings.Split(s, sep)` for a one-byte separator. -/
def Split : GoString → Byte → List GoString
  | [], _ => [[]]
  | c :: cs, sep =>
    if c = sep then [] :: Split cs sep
    else
      match Split cs sep with
      | [] => [[c]]
      | t :: ts => (c :: t) :: ts

/-- The call `strings.HasPrefix(s, p)`. -/
def startsWith : GoString → GoString → Bool
  | _, [] => true
  | [], _ :: _ => false
  | c :: cs, p :: ps => decide (c = p) && startsWith cs ps

/-- The function `extractCommandName(command)`; `none` is a run-time panic of the slice
expression `command[cmdStart:]`. -/
def extractCommandName (command : GoString) : Option GoString :=
  let cmdStart := IndexRune command rbracket
  if cmdStart = -1 then some []
  else
    match sliceFrom command (cmdStart + 3) with
    | none => none
    | some rest =>
      let cmdEnd := IndexRune rest dquote
      if cmdEnd = -1 then some []
      else sliceRange command (cmdStart + 3) (cmdStart + 3 + cmdEnd)

/-- The `switch base` of `saveCommandValue`. -/
def dispatch (base key : GoString) (val : List GoString) : List Printed :=
  if base = ascii "\"HSET\"" then saveHashKind key val
  else if base = ascii "\"HMSET\"" then saveHashKind key val
  else if base = ascii "\"SET\"" then [Printed.set base key val]
  else if base = ascii "\"GEOADD\"" then saveGeoKind key val
  else if base = ascii "\"HINCRBY\"" then [Printed.word (ascii "HINCRBY")]
  else if base = ascii "\"HSETNX\"" then [Printed.word (ascii "HSETNX")]
  else if base = ascii "\"HDEL\"" then [Printed.word (ascii "HDEL")]
  else []

/-- The function `saveCommandValue(command)`: the lines it prints; `none` is a run-time
panic (`command[cmdStart:]` out of range, or `cmd[1]` index out of range). -/
def saveCommandValue (command : GoString) : Option (List Printed) :=
  let cmdStart := IndexRune command rbracket + 2
  match sliceFrom command cmdStart with
  | none => none
  | some rest =>
    match Split rest space with
    | base :: key :: val => some (dispatch base key val)
    | _ => none

/-! ## main.go: the aggregator -/

/-- The struct `CommandInfo`. -/
structure CommandInfo where
  Name : GoString
  Count : Int
deriving DecidableEq, Repr

/-- The struct `Stats`.  `heap` lists the `CommandInfo` records allocated so far; a
`*CommandInfo` is an index into it.  `Data` is the map in insertion order (the program
never depends on the iteration order of the map). -/
structure Stats where
  heap : List CommandInfo
  Data : List (GoString × Nat)
  Slice : List Nat
  Dirty : Bool
  HasData : Bool
deriving DecidableEq, Repr

/-- The value of an `int64` expression whose mathematical value is `x`. -/
def wrapInt64 (x : Int) : Int :=
  (x + 9223372036854775808) % 18446744073709551616 - 9223372036854775808

/-- The record a pointer refers to. -/
def deref (heap : List CommandInfo) (p : Nat) : CommandInfo :=
  heap.getD p { Name := [], Count := 0 }

/-- The assignment `p.Count = c` through a pointer. -/
def setCount (heap : List CommandInfo) (p : Nat) (c : Int) : List CommandInfo :=
  heap.set p { deref heap p with Count := c }

/-- The map index expression `m[key]`; `none` is the `nil` pointer. -/
def mapGet : List (GoString × Nat) → GoString → Option Nat
  | [], _ => none
  | (k, p) :: rest, key => if k = key then some p else mapGet rest key

/-- The function `NewStats()`. -/
def NewStats : Stats :=
  { heap := [], Data := [], Slice := [], Dirty := false, HasData := false }

/-- The method `Stats.Clean`. -/
def Stats.Clean (s : Stats) : Stats :=
  if !s.Dirty then s
  else
    { s with
      heap := s.Data.foldl (fun h kv => setCount h kv.2 0) s.heap
      HasData := false
      Dirty := false }

/-- The `if s.Data[command] == nil` block of `Stats.Increment`. -/
def Stats.ensure (s : Stats) (command : GoString) : Stats :=
  match mapGet s.Data command with
  | none =>
    { s with
      heap := s.heap ++ [{ Name := command, Count := 0 }]
      Data := s.Data ++ [(command, s.heap.length)]
      Slice := s.Slice ++ [s.heap.length] }
  | some _ => s

/-- The method `Stats.Increment`.  The `none` branch stands for `s.Data[command]` being
`nil` at the statement `s.Data[command].Count++`; after the block above it is never taken
(`ensure_mapGet`). -/
def Stats.Increment (s : Stats) (command : GoString) : Stats :=
  let s1 := s.ensure command
  match mapGet s1.Data command with
  | some p =>
    { s1 with heap := setCount s1.heap p (wrapInt64 ((deref s1.heap p).Count + 1)), HasData := true }
  | none => { s1 with HasData := true }

/-- The method `CommandInfoSlice.Less`, on the two pointers `a = s[i]` and `b = s[j]`. -/
def CommandInfoSlice.Less (heap : List CommandInfo) (a b : Nat) : Bool :=
  decide ((deref heap a).Count < (deref heap b).Count)

/-- The ordering of `sort.Reverse(data)`: its `Less(i, j)` is `data.Less(j, i)`. -/
def Reverse (less : Nat → Nat → Bool) (a b : Nat) : Bool := less b a

/-- A sorting routine as `sort.Sort` is one: it is given the `Less` of the data as a
comparison of elements, and rearranges the slice. -/
abbrev SortFn := (Nat → Nat → Bool) → List Nat → List Nat

/-- The inner loop of Go's `insertionSort`,
`for j := i; j > a && data.Less(j, j-1); j-- { data.Swap(j, j-1) }`: the element `x`
moves left past every element it is less than.  The sorted part is held last element
first. -/
def sinkLeft (less : Nat → Nat → Bool) : List Nat → Nat → List Nat
  | [], x => [x]
  | p :: ps, x => if less x p then p :: sinkLeft less ps x else x :: p :: ps

/-- Go's `insertionSort`, the routine `sort.Sort` runs on a short slice. -/
def insertionSort : SortFn := fun less l => (l.foldl (sinkLeft less) []).reverse

/-- A case-mapping routine as `strings.ToUpper` is one. -/
abbrev UpperFn := GoString → GoString

/-- The call `strings.ToUpper(s)` on a string of ASCII bytes: the letters `a` to `z`
become `A` to `Z` and every other byte stays.  On a string with a byte from `0x80` on the
library maps Unicode code points instead, so `renderStats` takes the routine as a
parameter; this one stands for it at concrete ASCII names. -/
def toUpperASCII : UpperFn :=
  fun s => s.map (fun c => if 97 ≤ c.val ∧ c.val ≤ 122 then c - 32 else c)

/-- One line of the table: the placeholder line of dashes, or the line of one entry.
`first` tells whether the line carries the time stamp, `Count` is the `info.Count` the
count and rate columns are formatted from, and `Name` is the text of the last column,
`strings.ToUpper(info.Name)`. -/
inductive Row where
  | placeholder
  | stat (first : Bool) (Count : Int) (Name : GoString)
deriving DecidableEq, Repr

/-- The loop `for i, info := range stats.Slice` of `renderStats`, from index `i` on; `up`
is the routine behind `strings.ToUpper`. -/
def printRows (up : UpperFn) (heap : List CommandInfo) : Nat → List Nat → List Row
  | _, [] => []
  | i, p :: ps =>
    if (deref heap p).Count = 0 then []
    else
      Row.stat (i == 0) (deref heap p).Count (up (deref heap p).Name)
        :: printRows up heap (i + 1) ps

/-- The function `renderStats`, with the routines behind `sort.Sort` and
`strings.ToUpper` as parameters: the state it leaves and the lines it prints. -/
def renderStats (srt : SortFn) (up : UpperFn) (s : Stats) : Stats × List Row :=
  if !s.HasData || s.Dirty then (s, [Row.placeholder])
  else
    let sorted := srt (Reverse (CommandInfoSlice.Less s.heap)) s.Slice
    ({ s with Slice := sorted, Dirty := true }, printRows up s.heap 0 sorted)

/-- The entries the loop of `renderStats` prints a line for, as name and count: those of
the slice up to the first one whose count is zero. -/
def printedEntries (heap : List CommandInfo) : List Nat → List (GoString × Int)
  | [] => []
  | p :: ps =>
    if (deref heap p).Count = 0 then []
    else ((deref heap p).Name, (deref heap p).Count) :: printedEntries heap ps

/-- The entries `renderStats` prints a line for, in the order of the lines; none when it
prints the placeholder. -/
def renderedEntries (srt : SortFn) (s : Stats) : List (GoString × Int) :=
  if !s.HasData || s.Dirty then []
  else printedEntries s.heap (srt (Reverse (CommandInfoSlice.Less s.heap)) s.Slice)

/-- The table lines of a list of entries, the first of them at index `i`: one line for
each entry, with its count and its name in upper case. -/
def statRows (up : UpperFn) : Nat → List (GoString × Int) → List Row
  | _, [] => []
  | i, e :: es => Row.stat (i == 0) e.2 (up e.1) :: statRows up (i + 1) es

/-! ## main.go: the read loop -/

/-- The two statements `if stats.Dirty { stats.Clean() }` and `stats.Increment(name)` of
the loop of `processCommands`. -/
def streamStep (s : Stats) (name : GoString) : Stats :=
  (if s.Dirty then s.Clean else s).Increment name

/-- How one round of the loop of `processCommands` ends. -/
inductive Outcome where
  | next (s : Stats) (printed : List Printed)
  | exit
  | panic
deriving DecidableEq, Repr

/-- One round of the loop of `processCommands` on the string `str` just read. -/
def processLine (s : Stats) (str : GoString) : Outcome :=
  if str.length > 0 then
    if str = ascii "+OK\r\n" then Outcome.next s []
    else if startsWith str (ascii "-ERR ") then Outcome.exit
    else
      match extractCommandName str with
      | none => Outcome.panic
      | some name =>
        match saveCommandValue str with
        | none => Outcome.panic
        | some printed => Outcome.next (streamStep s name) printed
  else Outcome.next s []

/-! ## Reading the state -/

/-- The count stored for a name, `0` when the name has no entry. -/
def Stats.count (s : Stats) (name : GoString) : Int :=
  match mapGet s.Data name with
  | some p => (deref s.heap p).Count
  | none => 0

/-- The entries of `Slice` in order, as name and count. -/
def Stats.entries (s : Stats) : List (GoString × Int) :=
  s.Slice.map (fun p => ((deref s.heap p).Name, (deref s.heap p).Count))

/-- What `sort.Sort` promises: the result is a rearrangement of the input, and for a
`Less` that is a strict weak ordering no element of it is less than an earlier one. -/
def SortContract (srt : SortFn) : Prop :=
  ∀ (less : Nat → Nat → Bool) (l : List Nat),
    (srt less l).Perm l ∧
    ((∀ a b, less a b = true → less b a = false) →
      (∀ a b c, less a c = true → less a b = true ∨ less b c = true) →
      (srt less l).Pairwise (fun a b => less b a = false))

/-- The states the aggregator can be in: from `NewStats` by `Increment`, `Clean` and
`renderStats`, whatever conforming routine `sort.Sort` runs. -/
inductive Reachable : Stats → Prop where
  | init : Reachable NewStats
  | increment (s : Stats) (name : GoString) : Reachable s → Reachable (s.Increment name)
  | clean (s : Stats) : Reachable s → Reachable s.Clean
  | render (srt : SortFn) {up : UpperFn} (s : Stats) : SortContract srt → Reachable s →
      Reachable (renderStats srt up s).1

/-- The map a heap gives rise to when every record is entered under its name as it is
allocated: the record at index `k + i` under the name of the `i`-th record. -/
def dataFrom (k : Nat) : List CommandInfo → List (GoString × Nat)
  | [] => []
  | c :: cs => (c.Name, k) :: dataFrom (k + 1) cs

/-- The count of the first record of a heap with the given name, `0` when there is none. -/
def heapCount : List CommandInfo → GoString → Int
  | [], _ => 0
  | c :: cs, name => if c.Name = name then c.Count else heapCount cs name

/-- Well-formed states: `Data` holds exactly the allocated records, each under its name,
no two records share a name, and `Slice` holds every record once. -/
def Stats.WF (s : Stats) : Prop :=
  s.Data = dataFrom 0 s.heap ∧ (s.heap.map CommandInfo.Name).Nodup ∧
    s.Slice.Perm (List.range s.heap.length)

/-- The position at which a name first occurs in a list of names (the length of the list
when it does not occur). -/
def firstIndex : List GoString → GoString → Nat
  | [], _ => 0
  | x :: t, a => if x = a then 0 else firstIndex t a + 1

/-- Ties between printed entries follow the list `order`: of two entries with the same
count, the one printed first has the name that occurs first in `order`. -/
def TiesInOrder (order : List GoString) (printed : List (GoString × Int)) : Prop :=
  printed.Pairwise
    (fun e1 e2 => e1.2 = e2.2 → firstIndex order e1.1 < firstIndex order e2.1)

/-! ## Lines of the monitor feed -/

/-- A token between double quotes. -/
def quoted (t : GoString) : GoString := dquote :: (t ++ [dquote])

/-- Tokens written one after the other with one space between them. -/
def joinTokens : List GoString → GoString
  | [] => []
  | [t] => t
  | t :: u :: ts => t ++ space :: joinTokens (u :: ts)

/-- A line of the documented form `<ts> [<db> <addr>] "<CMD>" "<arg>"*`: `pre` is the text
before the closing bracket, `cmd` the command name, `args` the arguments without their
quotes, and `term` what ends the line (`\r\n` on the wire). -/
def monitorLine (pre cmd : GoString) (args : List GoString) (term : GoString) : GoString :=
  pre ++ rbracket :: space :: (joinTokens (quoted cmd :: args.map quoted) ++ term)

/-- The slice `cmd` of `saveCommandValue`: the text from two bytes after the bracket on,
split at the spaces; `none` is the panic of `command[cmdStart:]`. -/
def commandTokens (command : GoString) : Option (List GoString) :=
  match sliceFrom command (IndexRune command rbracket + 2) with
  | none => none
  | some rest => some (Split rest space)

/-- A token list with a text added at the end of its last token. -/
def appendLast : List GoString → GoString → List GoString
  | [], _ => []
  | [t], term => [t ++ term]
  | t :: u :: ts, term => t :: appendLast (u :: ts) term

/-- The states the aggregator reaches while no count leaves the range of `int64`: every
`Increment` finds its count below the largest `int64`, so the counts behave as unbounded
integers. -/
inductive ReachableExact : Stats → Prop where
  | init : ReachableExact NewStats
  | increment (s : Stats) (name : GoString) : ReachableExact s →
      s.count name < 9223372036854775807 → ReachableExact (s.Increment name)
  | clean (s : Stats) : ReachableExact s → ReachableExact s.Clean
  | render (srt : SortFn) {up : UpperFn} (s : Stats) : SortContract srt →
      ReachableExact s → ReachableExact (renderStats srt up s).1

/-! # Theorems -/

/-! ## The argument decoders -/

theorem saveHashKindLoop_spec (n : Nat) (l : List GoString) :
    ∀ (i : Nat) (last : KeyVal) (vals : List KeyVal), l ≠ [] → n = i + l.length →
      (i % 2 = 0 → saveHashKindLoop n l i last vals = some (vals ++ pairsOf l)) ∧
      (i % 2 = 1 → saveHashKindLoop n l i last vals
        = some (vals ++ pairsOf (last.Key :: l))) := by
  induction l with
  | nil => intro i last vals h; exact absurd rfl h
  | cons k rest ih =>
    intro i last vals _ hn
    by_cases hr : rest = []
    · subst hr
      have h1 : n = i + 1 := by simpa using hn
      constructor
      · intro he
        simp [saveHashKindLoop, h1, he, pairsOf]
      · intro ho
        simp [saveHashKindLoop, h1, ho, pairsOf]
    · have h1 : n ≠ i + 1 := by
        have : 0 < rest.length := List.length_pos.mpr hr
        simp only [List.length_cons] at hn
        omega
      have hn1 : n = (i + 1) + rest.length := by
        simp only [List.length_cons] at hn
        omega
      constructor
      · intro he
        have ho : (i + 1) % 2 = 1 := by omega
        simp only [saveHashKindLoop, h1, he, if_false, ne_eq, not_true_eq_false]
        rw [((ih (i + 1) _ _ hr hn1).2 ho)]
      · intro ho
        have he : (i + 1) % 2 = 0 := by omega
        simp only [saveHashKindLoop, h1, ho, if_false, ne_eq]
        rw [((ih (i + 1) _ _ hr hn1).1 he)]
        simp [pairsOf]

theorem pairsOf_length : ∀ (l : List GoString), (pairsOf l).length = l.length / 2
  | [] => by simp [pairsOf]
  | [_] => by simp [pairsOf]
  | a :: b :: rest => by
    simp only [pairsOf, List.length_cons, pairsOf_length rest]
    omega

theorem pairsOf_get : ∀ (l : List GoString) (i : Nat) (a b : GoString),
    l[2 * i]? = some a → l[2 * i + 1]? = some b → (pairsOf l)[i]? = some { Key := a, Val := b }
  | [], i, a, b => by simp
  | [_], i, a, b => by
    intro _ h
    simp at h
  | x :: y :: rest, 0, a, b => by
    intro h1 h2
    simp at h1 h2
    simp [pairsOf, h1, h2]
  | x :: y :: rest, i + 1, a, b => by
    intro h1 h2
    have e1 : 2 * (i + 1) = (2 * i + 1) + 1 := by ring
    have e2 : 2 * (i + 1) + 1 = (2 * i + 1 + 1) + 1 := by ring
    rw [e1] at h1
    rw [e2] at h2
    simp only [List.getElem?_cons_succ] at h1 h2
    simp only [pairsOf, List.getElem?_cons_succ]
    exact pairsOf_get rest i a b h1 h2

theorem saveHashKind_eq (key : GoString) (args : List GoString) (h : args ≠ []) :
    saveHashKind key args = [Printed.hash key (pairsOf args)] := by
  have := (saveHashKindLoop_spec args.length args 0 { Key := [], Val := [] } [] h (by simp)).1 rfl
  simp [saveHashKind, this]

theorem saveGeoKindLoop_spec (n : Nat) (l : List GoString) :
    ∀ (i : Nat) (last : GeoVal) (first : Bool) (vals : List GeoVal),
      l ≠ [] → n + 3 = i + l.length →
      (i % 3 = 0 → saveGeoKindLoop n l i last first vals = some (vals ++ triplesOf l)) ∧
      (i % 3 = 1 → first = true → saveGeoKindLoop n l i last first vals
        = some (vals ++ triplesOf (last.Long :: l))) ∧
      (i % 3 = 2 → first = false → saveGeoKindLoop n l i last first vals
        = some (vals ++ triplesOf (last.Long :: last.Lat :: l))) := by
  induction l with
  | nil => intro i last first vals h; exact absurd rfl h
  | cons k rest ih =>
    intro i last first vals _ hn
    by_cases hr : rest = []
    · subst hr
      have h1 : n + 3 = i + 1 := by simpa using hn
      refine ⟨?_, ?_, ?_⟩
      · intro h0
        simp [saveGeoKindLoop, h1, h0, triplesOf]
      · intro h0 hf
        have h3 : i % 3 ≠ 0 := by omega
        simp [saveGeoKindLoop, h1, h3, hf, triplesOf]
      · intro h0 hf
        have h3 : i % 3 ≠ 0 := by omega
        simp [saveGeoKindLoop, h1, h3, hf, triplesOf]
    · have h1 : n + 3 ≠ i + 1 := by
        have : 0 < rest.length := List.length_pos.mpr hr
        simp only [List.length_cons] at hn
        omega
      have hn1 : n + 3 = (i + 1) + rest.length := by
        simp only [List.length_cons] at hn
        omega
      refine ⟨?_, ?_, ?_⟩
      · intro h0
        have hs : (i + 1) % 3 = 1 := by omega
        simp only [saveGeoKindLoop, h1, h0, if_true, if_false]
        rw [(ih (i + 1) _ _ _ hr hn1).2.1 hs rfl]
      · intro h0 hf
        have hs : (i + 1) % 3 = 2 := by omega
        have h3 : i % 3 ≠ 0 := by omega
        subst hf
        simp only [saveGeoKindLoop, h1, h3, if_true, if_false]
        rw [(ih (i + 1) _ _ _ hr hn1).2.2 hs rfl]
      · intro h0 hf
        have hs : (i + 1) % 3 = 0 := by omega
        have h3 : i % 3 ≠ 0 := by omega
        subst hf
        simp only [saveGeoKindLoop, h1, h3, if_true, if_false]
        rw [(ih (i + 1) _ _ _ hr hn1).1 hs]
        simp [triplesOf]

theorem triplesOf_length : ∀ (l : List GoString), (triplesOf l).length = l.length / 3
  | [] => by simp [triplesOf]
  | [_] => by simp [triplesOf]
  | [_, _] => by simp [triplesOf]
  | a :: b :: c :: rest => by
    simp only [triplesOf, List.length_cons, triplesOf_length rest]
    omega

theorem triplesOf_get : ∀ (l : List GoString) (i : Nat) (a b c : GoString),
    l[3 * i]? = some a → l[3 * i + 1]? = some b → l[3 * i + 2]? = some c →
      (triplesOf l)[i]? = some { Long := a, Lat := b, Member := c }
  | [], i, a, b, c => by simp
  | [_], i, a, b, c => by
    intro _ h
    simp at h
  | [_, _], i, a, b, c => by
    intro _ _ h
    simp at h
  | x :: y :: z :: rest, 0, a, b, c => by
    intro h1 h2 h3
    simp at h1 h2 h3
    simp [triplesOf, h1, h2, h3]
  | x :: y :: z :: rest, i + 1, a, b, c => by
    intro h1 h2 h3
    have e1 : 3 * (i + 1) = (3 * i + 1 + 1) + 1 := by ring
    have e2 : 3 * (i + 1) + 1 = (3 * i + 1 + 1 + 1) + 1 := by ring
    have e3 : 3 * (i + 1) + 2 = (3 * i + 2 + 1 + 1) + 1 := by ring
    rw [e1] at h1
    rw [e2] at h2
    rw [e3] at h3
    simp only [List.getElem?_cons_succ] at h1 h2 h3
    simp only [triplesOf, List.getElem?_cons_succ]
    exact triplesOf_get rest i a b c h1 h2 h3

theorem saveGeoKind_eq (key : GoString) (values : List GoString) (h : values ≠ []) :
    saveGeoKind key values = [Printed.geo key (triplesOf values)] := by
  have := (saveGeoKindLoop_spec values.length values 3
    { Long := [], Lat := [], Member := [] } false [] h (by omega)).1 rfl
  simp [saveGeoKind, this]

/-- Claim C2 (flat key/value decoder): for a non-empty argument sequence `saveHashKind`
prints one record list, of `len(args) / 2` records, whose `i`-th record is
`{args[2i], args[2i+1]}`; a trailing unpaired token is dropped, so `[k1,v1,k2,v2]` gives
`[{k1,v1},{k2,v2}]` and `[k1,v1,k2]` gives `[{k1,v1}]`. -/
theorem C2_flat_pair_decoder (key : GoString) (args : List GoString) (h : args ≠ [])
    (k1 v1 k2 v2 : GoString) :
    (∃ recs : List KeyVal, saveHashKind key args = [Printed.hash key recs] ∧
      recs.length = args.length / 2 ∧
      ∀ (i : Nat) (a b : GoString), args[2 * i]? = some a → args[2 * i + 1]? = some b →
        recs[i]? = some { Key := a, Val := b }) ∧
    saveHashKind key [k1, v1, k2, v2]
      = [Printed.hash key [{ Key := k1, Val := v1 }, { Key := k2, Val := v2 }]] ∧
    saveHashKind key [k1, v1, k2] = [Printed.hash key [{ Key := k1, Val := v1 }]] := by
  refine ⟨⟨pairsOf args, saveHashKind_eq key args h, pairsOf_length args, pairsOf_get args⟩,
    ?_, ?_⟩
  · rw [saveHashKind_eq key _ (by simp)]
    rfl
  · rw [saveHashKind_eq key _ (by simp)]
    rfl

theorem C2_witness :
    [ascii "\"name\"", ascii "\"bob\"", ascii "\"age\"\r\n"] ≠ [] ∧
    saveHashKind (ascii "\"user\"") [ascii "\"name\"", ascii "\"bob\"", ascii "\"age\"\r\n"]
      = [Printed.hash (ascii "\"user\"") [{ Key := ascii "\"name\"", Val := ascii "\"bob\"" }]] :=
  ⟨by decide,
    (C2_flat_pair_decoder (ascii "\"user\"") [ascii "\"name\"", ascii "\"bob\"", ascii "\"age\"\r\n"]
      (by decide) (ascii "\"name\"") (ascii "\"bob\"") (ascii "\"age\"\r\n") []).2.2⟩

/-- Claim C3 (geo tuple decoder): for a non-empty argument sequence of any length
`saveGeoKind` prints one record list, of `len(values) / 3` records, whose `i`-th record is
`{values[3i], values[3i+1], values[3i+2]}`; tokens after the last complete triple are
dropped, so six tokens give two records and seven tokens give the same two records. -/
theorem C3_geo_tuple_decoder (key : GoString) (values : List GoString) (h : values ≠ [])
    (a1 a2 a3 a4 a5 a6 a7 : GoString) :
    (∃ recs : List GeoVal, saveGeoKind key values = [Printed.geo key recs] ∧
      recs.length = values.length / 3 ∧
      ∀ (i : Nat) (a b c : GoString), values[3 * i]? = some a → values[3 * i + 1]? = some b →
        values[3 * i + 2]? = some c → recs[i]? = some { Long := a, Lat := b, Member := c }) ∧
    saveGeoKind key [a1, a2, a3, a4, a5, a6]
      = [Printed.geo key [{ Long := a1, Lat := a2, Member := a3 },
          { Long := a4, Lat := a5, Member := a6 }]] ∧
    saveGeoKind key [a1, a2, a3, a4, a5, a6, a7] = saveGeoKind key [a1, a2, a3, a4, a5, a6] := by
  refine ⟨⟨triplesOf values, saveGeoKind_eq key values h, triplesOf_length values,
    triplesOf_get values⟩, ?_, ?_⟩
  · rw [saveGeoKind_eq key _ (by simp)]
    rfl
  · rw [saveGeoKind_eq key _ (by simp), saveGeoKind_eq key _ (by simp)]
    rfl

theorem C3_witness :
    [ascii "\"13.36\"", ascii "\"38.11\"", ascii "\"Palermo\"", ascii "\"15.08\""] ≠ [] ∧
    ∃ recs : List GeoVal,
      saveGeoKind (ascii "\"Sicily\"")
          [ascii "\"13.36\"", ascii "\"38.11\"", ascii "\"Palermo\"", ascii "\"15.08\""]
        = [Printed.geo (ascii "\"Sicily\"") recs] ∧
      recs.length = 4 / 3 :=
  ⟨by decide,
    let ⟨recs, h1, h2, _⟩ := (C3_geo_tuple_decoder (ascii "\"Sicily\"")
      [ascii "\"13.36\"", ascii "\"38.11\"", ascii "\"Palermo\"", ascii "\"15.08\""]
      (by decide) [] [] [] [] [] [] []).1
    ⟨recs, h1, h2⟩⟩

/-! ## The map and the heap -/

theorem dataFrom_append (k : Nat) (h : List CommandInfo) (c : CommandInfo) :
    dataFrom k (h ++ [c]) = dataFrom k h ++ [(c.Name, k + h.length)] := by
  induction h generalizing k with
  | nil => simp [dataFrom]
  | cons a t ih =>
    have e : k + 1 + t.length = k + (t.length + 1) := by omega
    show (a.Name, k) :: dataFrom (k + 1) (t ++ [c]) = _
    rw [ih (k + 1), e]
    rfl

theorem dataFrom_names (k : Nat) (h h' : List CommandInfo)
    (e : h.map CommandInfo.Name = h'.map CommandInfo.Name) : dataFrom k h = dataFrom k h' := by
  induction h generalizing k h' with
  | nil =>
    cases h' with
    | nil => rfl
    | cons b t => simp at e
  | cons a t ih =>
    cases h' with
    | nil => simp at e
    | cons b t' =>
      simp only [List.map_cons, List.cons.injEq] at e
      simp only [dataFrom, e.1, ih (k + 1) t' e.2]

theorem mapGet_dataFrom_none (k : Nat) (h : List CommandInfo) (n : GoString) :
    mapGet (dataFrom k h) n = none ↔ n ∉ h.map CommandInfo.Name := by
  induction h generalizing k with
  | nil => simp [dataFrom, mapGet]
  | cons a t ih =>
    simp only [dataFrom, mapGet, List.map_cons, List.mem_cons, not_or]
    by_cases e : a.Name = n
    · simp [e]
    · simp only [e, if_false, ih]
      constructor
      · intro h1
        exact ⟨fun h2 => e h2.symm, h1⟩
      · intro h1
        exact h1.2

theorem mapGet_dataFrom_some (k : Nat) (h : List CommandInfo) (n : GoString) (p : Nat)
    (e : mapGet (dataFrom k h) n = some p) :
    k ≤ p ∧ p < k + h.length ∧ (h.getD (p - k) { Name := [], Count := 0 }).Name = n ∧
      heapCount h n = (h.getD (p - k) { Name := [], Count := 0 }).Count := by
  induction h generalizing k with
  | nil => simp [dataFrom, mapGet] at e
  | cons a t ih =>
    simp only [dataFrom, mapGet] at e
    by_cases e1 : a.Name = n
    · simp only [e1, if_true, Option.some.injEq] at e
      subst e
      simp [e1, heapCount]
    · simp only [e1, if_false] at e
      obtain ⟨h1, h2, h3, h4⟩ := ih (k + 1) e
      have : p - k = (p - (k + 1)) + 1 := by omega
      rw [this]
      simp only [List.length_cons, List.getD_cons_succ, heapCount, e1, if_false]
      exact ⟨by omega, by omega, h3, h4⟩

theorem mapGet_append_none (d : List (GoString × Nat)) (n : GoString) (p : Nat)
    (e : mapGet d n = none) : mapGet (d ++ [(n, p)]) n = some p := by
  induction d with
  | nil => simp [mapGet]
  | cons a t ih =>
    obtain ⟨k, q⟩ := a
    simp only [mapGet] at e
    by_cases e1 : k = n
    · simp [e1] at e
    · simp only [e1, if_false] at e
      simp [mapGet, e1, ih e]

theorem heapCount_not_mem (h : List CommandInfo) (n : GoString)
    (e : n ∉ h.map CommandInfo.Name) : heapCount h n = 0 := by
  induction h with
  | nil => rfl
  | cons a t ih =>
    simp only [List.map_cons, List.mem_cons, not_or] at e
    have : ¬ a.Name = n := fun h2 => e.1 h2.symm
    simp [heapCount, this, ih e.2]

/-- Under the invariant the count read through the map is the count in the heap. -/
theorem count_eq_heapCount (s : Stats) (w : s.WF) (n : GoString) :
    s.count n = heapCount s.heap n := by
  unfold Stats.count
  rw [w.1]
  cases e : mapGet (dataFrom 0 s.heap) n with
  | none =>
    simp only
    rw [heapCount_not_mem _ _ ((mapGet_dataFrom_none 0 s.heap n).1 e)]
  | some p =>
    simp only
    obtain ⟨_, _, _, h4⟩ := mapGet_dataFrom_some 0 s.heap n p e
    rw [h4]
    rfl

theorem deref_cons_succ (a : CommandInfo) (t : List CommandInfo) (p : Nat) :
    deref (a :: t) (p + 1) = deref t p := by
  simp [deref]

theorem setCount_cons_succ (a : CommandInfo) (t : List CommandInfo) (p : Nat) (c : Int) :
    setCount (a :: t) (p + 1) c = a :: setCount t p c := by
  simp [setCount, deref]

theorem setCount_length (h : List CommandInfo) (p : Nat) (c : Int) :
    (setCount h p c).length = h.length := by
  simp [setCount]

theorem setCount_names (h : List CommandInfo) (p : Nat) (c : Int) :
    (setCount h p c).map CommandInfo.Name = h.map CommandInfo.Name := by
  induction h generalizing p with
  | nil => simp [setCount]
  | cons a t ih =>
    cases p with
    | zero => simp [setCount, deref]
    | succ q => simp [setCount_cons_succ, ih q]

theorem heapCount_setCount (h : List CommandInfo) (p : Nat) (c : Int) (n : GoString)
    (nd : (h.map CommandInfo.Name).Nodup) (hp : p < h.length) :
    heapCount (setCount h p c) n
      = if n = (deref h p).Name then c else heapCount h n := by
  induction h generalizing p with
  | nil => simp at hp
  | cons a t ih =>
    simp only [List.map_cons, List.nodup_cons] at nd
    cases p with
    | zero =>
      simp only [setCount, deref, List.getD_cons_zero, List.set_cons_zero, heapCount]
      by_cases e : a.Name = n
      · simp [e]
      · have e2 : ¬ n = a.Name := fun h2 => e h2.symm
        simp [e, e2]
    | succ q =>
      have hq : q < t.length := by simpa using hp
      rw [setCount_cons_succ, deref_cons_succ]
      simp only [heapCount]
      by_cases e : a.Name = n
      · have hmem : (deref t q).Name ∈ t.map CommandInfo.Name := by
          simp only [deref, List.mem_map]
          refine ⟨t.getD q _, ?_, rfl⟩
          rw [List.getD_eq_getElem _ _ hq]
          exact List.getElem_mem hq
        have e2 : ¬ n = (deref t q).Name := by
          intro h2
          apply nd.1
          rw [e, h2]
          exact hmem
        simp [e, e2]
      · simp only [e, if_false]
        exact ih q nd.2 hq

theorem heapCount_append_new (h : List CommandInfo) (x n : GoString) (c : Int)
    (hx : x ∉ h.map CommandInfo.Name) :
    heapCount (h ++ [{ Name := x, Count := c }]) n = if n = x then c else heapCount h n := by
  induction h with
  | nil =>
    simp only [List.nil_append, heapCount]
    by_cases e : x = n
    · simp [e]
    · have e2 : ¬ n = x := fun h2 => e h2.symm
      simp [e, e2]
  | cons a t ih =>
    simp only [List.map_cons, List.mem_cons, not_or] at hx
    simp only [List.cons_append, heapCount]
    by_cases e : a.Name = n
    · have e2 : ¬ n = x := fun h2 => hx.1 (by rw [← h2, e])
      simp [e, e2]
    · simp only [e, if_false]
      exact ih hx.2

theorem setCount_append_last (h : List CommandInfo) (a : CommandInfo) (c : Int) :
    setCount (h ++ [a]) h.length c = h ++ [{ a with Count := c }] := by
  induction h with
  | nil => simp [setCount, deref]
  | cons b t ih =>
    simp only [List.cons_append, List.length_cons, setCount_cons_succ, ih]

/-- After the `if s.Data[command] == nil` block the map has an entry for the name. -/
theorem ensure_mapGet (s : Stats) (x : GoString) : mapGet (s.ensure x).Data x ≠ none := by
  cases e : mapGet s.Data x with
  | none => simp [Stats.ensure, e, mapGet_append_none _ _ _ e]
  | some p => simp [Stats.ensure, e]

/-- What `Increment` does when the name has no entry yet. -/
theorem Increment_new (s : Stats) (x : GoString) (e : mapGet s.Data x = none) :
    s.Increment x =
      { heap := s.heap ++ [{ Name := x, Count := wrapInt64 (0 + 1) }]
        Data := s.Data ++ [(x, s.heap.length)]
        Slice := s.Slice ++ [s.heap.length]
        Dirty := s.Dirty
        HasData := true } := by
  have h1 : s.ensure x =
      { s with
        heap := s.heap ++ [{ Name := x, Count := 0 }]
        Data := s.Data ++ [(x, s.heap.length)]
        Slice := s.Slice ++ [s.heap.length] } := by
    simp [Stats.ensure, e]
  have h2 : mapGet (s.Data ++ [(x, s.heap.length)]) x = some s.heap.length :=
    mapGet_append_none _ _ _ e
  have h3 : deref (s.heap ++ [{ Name := x, Count := 0 }]) s.heap.length
      = { Name := x, Count := 0 } := by
    simp [deref]
  simp only [Stats.Increment, h1, h2, setCount_append_last, h3]

/-- What `Increment` does when the name has an entry. -/
theorem Increment_old (s : Stats) (x : GoString) (p : Nat) (e : mapGet s.Data x = some p) :
    s.Increment x =
      { s with
        heap := setCount s.heap p (wrapInt64 ((deref s.heap p).Count + 1))
        HasData := true } := by
  have h1 : s.ensure x = s := by simp [Stats.ensure, e]
  simp only [Stats.Increment, h1, e]

theorem Increment_WF (s : Stats) (x : GoString) (w : s.WF) : (s.Increment x).WF := by
  obtain ⟨w1, w2, w3⟩ := w
  cases e : mapGet s.Data x with
  | none =>
    rw [Increment_new s x e]
    have hx : x ∉ s.heap.map CommandInfo.Name := by
      rw [w1] at e
      exact (mapGet_dataFrom_none 0 s.heap x).1 e
    refine ⟨?_, ?_, ?_⟩
    · simp only [dataFrom_append, w1, Nat.zero_add]
    · simp only [List.map_append, List.map_cons, List.map_nil]
      rw [List.nodup_append]
      refine ⟨w2, List.nodup_singleton _, ?_⟩
      intro a ha hb
      simp only [List.mem_singleton] at hb
      subst hb
      exact hx ha
    · simp only [List.length_append, List.length_singleton, List.range_succ]
      exact List.Perm.append w3 (List.Perm.refl _)
  | some p =>
    rw [Increment_old s x p e]
    refine ⟨?_, ?_, ?_⟩
    · simp only
      rw [w1]
      exact dataFrom_names 0 _ _ (setCount_names _ _ _).symm
    · simp only [setCount_names]
      exact w2
    · simp only [setCount_length]
      exact w3

theorem Increment_heapCount (s : Stats) (x n : GoString) (w : s.WF) :
    heapCount (s.Increment x).heap n
      = if n = x then wrapInt64 (heapCount s.heap x + 1) else heapCount s.heap n := by
  obtain ⟨w1, w2, _⟩ := w
  cases e : mapGet s.Data x with
  | none =>
    rw [Increment_new s x e]
    have hx : x ∉ s.heap.map CommandInfo.Name := by
      rw [w1] at e
      exact (mapGet_dataFrom_none 0 s.heap x).1 e
    simp only [heapCount_append_new _ _ _ _ hx, heapCount_not_mem _ _ hx]
  | some p =>
    rw [Increment_old s x p e]
    rw [w1] at e
    obtain ⟨_, h2, h3, h4⟩ := mapGet_dataFrom_some 0 s.heap x p e
    simp only [Nat.zero_add, Nat.sub_zero] at h2 h3 h4
    have hd : deref s.heap p = s.heap.getD p { Name := [], Count := 0 } := rfl
    simp only
    rw [heapCount_setCount _ _ _ _ w2 h2, hd, h3, h4]

/-! ## Clean, renderStats and the reachable states -/

theorem foldl_setCount_dataFrom (t pre : List CommandInfo) :
    (dataFrom pre.length t).foldl (fun h kv => setCount h kv.2 0) (pre ++ t)
      = pre ++ t.map (fun c => { c with Count := 0 }) := by
  induction t generalizing pre with
  | nil => simp [dataFrom]
  | cons a cs ih =>
    simp only [dataFrom, List.foldl_cons, List.map_cons]
    have h1 : setCount (pre ++ a :: cs) pre.length 0
        = (pre ++ [{ a with Count := 0 }]) ++ cs := by
      induction pre with
      | nil => simp [setCount, deref]
      | cons b t ih2 =>
        simp only [List.cons_append, List.length_cons, setCount_cons_succ, ih2]
    have h2 : pre.length + 1 = (pre ++ [{ a with Count := (0 : Int) }]).length := by simp
    rw [h1, h2, ih]
    simp

theorem Clean_dirty (s : Stats) (w : s.WF) (d : s.Dirty = true) :
    s.Clean =
      { s with
        heap := s.heap.map (fun c => { c with Count := 0 })
        HasData := false
        Dirty := false } := by
  have h := foldl_setCount_dataFrom s.heap []
  simp only [List.length_nil, List.nil_append] at h
  simp only [Stats.Clean, d, Bool.not_true, Bool.false_eq_true, if_false, w.1, h]

theorem Clean_clean (s : Stats) (d : s.Dirty = false) : s.Clean = s := by
  simp [Stats.Clean, d]

theorem Clean_WF (s : Stats) (w : s.WF) : s.Clean.WF := by
  cases d : s.Dirty with
  | false => rw [Clean_clean s d]; exact w
  | true =>
    rw [Clean_dirty s w d]
    obtain ⟨w1, w2, w3⟩ := w
    refine ⟨?_, ?_, ?_⟩
    · simp only
      rw [w1]
      apply dataFrom_names
      simp [Function.comp_def]
    · simpa [Function.comp_def] using w2
    · simpa using w3

theorem heapCount_map_zero (h : List CommandInfo) (n : GoString) :
    heapCount (h.map (fun c => { c with Count := 0 })) n = 0 := by
  induction h with
  | nil => rfl
  | cons a t ih =>
    simp only [List.map_cons, heapCount, ih]
    simp

theorem SortContract.perm {srt : SortFn} (c : SortContract srt) (less : Nat → Nat → Bool)
    (l : List Nat) : (srt less l).Perm l := (c less l).1

theorem render_WF {up : UpperFn} (srt : SortFn) (c : SortContract srt) (s : Stats) (w : s.WF) :
    (renderStats srt up s).1.WF := by
  unfold renderStats
  split
  · exact w
  · exact ⟨w.1, w.2.1, (c.perm _ _).trans w.2.2⟩

theorem render_heap {up : UpperFn} (srt : SortFn) (s : Stats) :
    (renderStats srt up s).1.heap = s.heap := by
  unfold renderStats
  split <;> rfl

theorem render_Data {up : UpperFn} (srt : SortFn) (s : Stats) :
    (renderStats srt up s).1.Data = s.Data := by
  unfold renderStats
  split <;> rfl

theorem render_HasData {up : UpperFn} (srt : SortFn) (s : Stats) :
    (renderStats srt up s).1.HasData = s.HasData := by
  unfold renderStats
  split <;> rfl

theorem NewStats_WF : NewStats.WF := by
  refine ⟨rfl, ?_, ?_⟩
  · simp [NewStats]
  · simp [NewStats]

theorem Increment_HasData (s : Stats) (x : GoString) : (s.Increment x).HasData = true := by
  cases e : mapGet s.Data x with
  | none => rw [Increment_new s x e]
  | some p => rw [Increment_old s x p e]

theorem Increment_Dirty (s : Stats) (x : GoString) : (s.Increment x).Dirty = s.Dirty := by
  cases e : mapGet s.Data x with
  | none => rw [Increment_new s x e]
  | some p => rw [Increment_old s x p e]

/-- The invariant of the reachable states: they are well formed, and when `HasData` is
clear every count is zero. -/
theorem Reachable.inv {s : Stats} (r : Reachable s) :
    s.WF ∧ (s.HasData = false → ∀ n, heapCount s.heap n = 0) := by
  induction r with
  | init => exact ⟨NewStats_WF, fun _ _ => rfl⟩
  | increment s x _ ih =>
    refine ⟨Increment_WF s x ih.1, ?_⟩
    intro h
    rw [Increment_HasData] at h
    exact absurd h (by simp)
  | clean s _ ih =>
    refine ⟨Clean_WF s ih.1, ?_⟩
    intro h n
    cases d : s.Dirty with
    | false =>
      rw [Clean_clean s d] at h ⊢
      exact ih.2 h n
    | true =>
      rw [Clean_dirty s ih.1 d]
      exact heapCount_map_zero _ _
  | render srt s c _ ih =>
    refine ⟨render_WF srt c s ih.1, ?_⟩
    intro h n
    rw [render_HasData] at h
    rw [render_heap]
    exact ih.2 h n

theorem wrapInt64_id (x : Int) (h0 : -9223372036854775808 ≤ x) (h1 : x < 9223372036854775808) :
    wrapInt64 x = x := by
  unfold wrapInt64
  omega

/-- Increments on a clean window add up, as long as the counts stay inside `int64`. -/
theorem foldl_Increment (seq : List GoString) :
    ∀ (s : Stats), s.WF → ∀ (n : GoString), 0 ≤ heapCount s.heap n →
      heapCount s.heap n + (seq.count n : Int) < 9223372036854775808 →
      heapCount (seq.foldl Stats.Increment s).heap n = heapCount s.heap n + (seq.count n : Int) := by
  induction seq with
  | nil => intro s _ n _ _; simp
  | cons x xs ih =>
    intro s w n h0 h1
    simp only [List.foldl_cons]
    have hstep := Increment_heapCount s x n w
    by_cases e : n = x
    · subst e
      simp only [List.count_cons_self, Nat.cast_add, Nat.cast_one] at h1 ⊢
      simp only [if_true] at hstep
      have hw : wrapInt64 (heapCount s.heap n + 1) = heapCount s.heap n + 1 := by
        apply wrapInt64_id <;> omega
      rw [hw] at hstep
      rw [ih (s.Increment n) (Increment_WF s n w) n (by omega) (by omega), hstep]
      omega
    · have e2 : ¬ x = n := fun h => e h.symm
      have e3 : (x == n) = false := by simpa using e2
      simp only [e, if_false] at hstep
      simp only [List.count_cons, e3] at h1 ⊢
      simp only [Bool.false_eq_true, if_false, Nat.add_zero] at h1 ⊢
      rw [ih (s.Increment x) (Increment_WF s x w) n (by omega) (by omega), hstep]

theorem foldl_Increment_WF (seq : List GoString) (s : Stats) (w : s.WF) :
    (seq.foldl Stats.Increment s).WF := by
  induction seq generalizing s with
  | nil => exact w
  | cons x xs ih => exact ih _ (Increment_WF s x w)

theorem foldl_Increment_Dirty (seq : List GoString) (s : Stats) :
    (seq.foldl Stats.Increment s).Dirty = s.Dirty := by
  induction seq generalizing s with
  | nil => rfl
  | cons x xs ih => simp only [List.foldl_cons, ih, Increment_Dirty]

theorem foldl_Increment_HasData (seq : List GoString) (s : Stats) (h : seq ≠ []) :
    (seq.foldl Stats.Increment s).HasData = true := by
  induction seq generalizing s with
  | nil => exact absurd rfl h
  | cons x xs ih =>
    cases xs with
    | nil => simp [Increment_HasData]
    | cons y ys => exact ih (s.Increment x) (by simp)

theorem foldl_streamStep_clean (seq : List GoString) (s : Stats) (d : s.Dirty = false) :
    seq.foldl streamStep s = seq.foldl Stats.Increment s := by
  induction seq generalizing s with
  | nil => rfl
  | cons x xs ih =>
    have h1 : streamStep s x = s.Increment x := by simp [streamStep, d]
    simp only [List.foldl_cons, h1]
    exact ih _ (by rw [Increment_Dirty]; exact d)

/-- The state in which a window starts: the state the first stream step increments. -/
theorem foldl_streamStep (seq : List GoString) (s : Stats) (h : seq ≠ []) :
    seq.foldl streamStep s = seq.foldl Stats.Increment (if s.Dirty then s.Clean else s) := by
  cases seq with
  | nil => exact absurd rfl h
  | cons x xs =>
    simp only [List.foldl_cons]
    have h1 : streamStep s x = (if s.Dirty then s.Clean else s).Increment x := rfl
    rw [h1]
    apply foldl_streamStep_clean
    rw [Increment_Dirty]
    cases d : s.Dirty with
    | false => simp [d]
    | true => simp [Stats.Clean, d]

/-! ## Sorting -/

theorem ReverseLess_asymm (heap : List CommandInfo) (a b : Nat)
    (h : Reverse (CommandInfoSlice.Less heap) a b = true) :
    Reverse (CommandInfoSlice.Less heap) b a = false := by
  simp only [Reverse, CommandInfoSlice.Less, decide_eq_true_eq, decide_eq_false_iff_not] at h ⊢
  omega

theorem ReverseLess_trichotomy (heap : List CommandInfo) (a b c : Nat)
    (h : Reverse (CommandInfoSlice.Less heap) a c = true) :
    Reverse (CommandInfoSlice.Less heap) a b = true ∨
      Reverse (CommandInfoSlice.Less heap) b c = true := by
  simp only [Reverse, CommandInfoSlice.Less, decide_eq_true_eq] at h ⊢
  omega

/-- After a conforming sort the counts along the slice do not increase. -/
theorem sorted_desc (srt : SortFn) (c : SortContract srt) (heap : List CommandInfo)
    (l : List Nat) :
    (srt (Reverse (CommandInfoSlice.Less heap)) l).Pairwise
      (fun a b => (deref heap b).Count ≤ (deref heap a).Count) := by
  have h := (c (Reverse (CommandInfoSlice.Less heap)) l).2 (ReverseLess_asymm heap)
    (ReverseLess_trichotomy heap)
  refine h.imp ?_
  intro a b hab
  simp only [Reverse, CommandInfoSlice.Less, decide_eq_false_iff_not, not_lt] at hab
  exact hab

/-- The lines the loop of `renderStats` prints are the lines of the entries it visits
before the first count of zero. -/
theorem printRows_eq_statRows (up : UpperFn) (heap : List CommandInfo) (l : List Nat) :
    ∀ (i : Nat), printRows up heap i l = statRows up i (printedEntries heap l) := by
  induction l with
  | nil => intro i; rfl
  | cons p ps ih =>
    intro i
    by_cases e : (deref heap p).Count = 0
    · simp [printRows, printedEntries, statRows, e]
    · simp [printRows, printedEntries, statRows, e, ih (i + 1)]

/-- On a slice whose counts do not increase and are not negative, the loop of
`renderStats` prints the entries with a count other than zero. -/
theorem printedEntries_eq_filter (heap : List CommandInfo) (l : List Nat)
    (hp : l.Pairwise (fun a b => (deref heap b).Count ≤ (deref heap a).Count))
    (h0 : ∀ p ∈ l, 0 ≤ (deref heap p).Count) :
    printedEntries heap l
      = (l.filter (fun p => decide ((deref heap p).Count ≠ 0))).map
          (fun p => ((deref heap p).Name, (deref heap p).Count)) := by
  induction l with
  | nil => rfl
  | cons p ps ih =>
    rw [List.pairwise_cons] at hp
    by_cases e : (deref heap p).Count = 0
    · have hz : ∀ q ∈ ps, (deref heap q).Count = 0 := by
        intro q hq
        have h1 := hp.1 q hq
        have h2 := h0 q (List.mem_cons_of_mem _ hq)
        omega
      have hf : ps.filter (fun p => decide ((deref heap p).Count ≠ 0)) = [] := by
        rw [List.filter_eq_nil_iff]
        intro q hq
        simp [hz q hq]
      simp only [printedEntries, e, if_true, List.filter_cons, ne_eq, not_true_eq_false,
        decide_False, Bool.false_eq_true, if_false]
      rw [hf]
      rfl
    · have := ih hp.2 (fun q hq => h0 q (List.mem_cons_of_mem _ hq))
      simp [printedEntries, e, List.filter_cons, this]

theorem deref_mem (heap : List CommandInfo) (p : Nat) (h : p < heap.length) :
    deref heap p ∈ heap := by
  simp only [deref]
  rw [List.getD_eq_getElem _ _ h]
  exact List.getElem_mem h

theorem heapCount_deref (heap : List CommandInfo) (nd : (heap.map CommandInfo.Name).Nodup)
    (p : Nat) (h : p < heap.length) :
    heapCount heap (deref heap p).Name = (deref heap p).Count := by
  induction heap generalizing p with
  | nil => simp at h
  | cons a t ih =>
    simp only [List.map_cons, List.nodup_cons] at nd
    cases p with
    | zero => simp [deref, heapCount]
    | succ q =>
      have hq : q < t.length := by simpa using h
      rw [deref_cons_succ]
      have hne : ¬ a.Name = (deref t q).Name := by
        intro e
        apply nd.1
        rw [e]
        exact List.mem_map_of_mem _ (deref_mem t q hq)
      simp only [heapCount, hne, if_false]
      exact ih nd.2 q hq

theorem deref_name_inj (heap : List CommandInfo) (nd : (heap.map CommandInfo.Name).Nodup)
    (p q : Nat) (hp : p < heap.length) (hq : q < heap.length)
    (e : (deref heap p).Name = (deref heap q).Name) : p = q := by
  induction heap generalizing p q with
  | nil => simp at hp
  | cons a t ih =>
    simp only [List.map_cons, List.nodup_cons] at nd
    cases p with
    | zero =>
      cases q with
      | zero => rfl
      | succ q =>
        have hq2 : q < t.length := by simpa using hq
        rw [deref_cons_succ] at e
        exact absurd (e ▸ List.mem_map_of_mem CommandInfo.Name (deref_mem t q hq2)) nd.1
    | succ p =>
      have hp2 : p < t.length := by simpa using hp
      cases q with
      | zero =>
        rw [deref_cons_succ] at e
        exact absurd (e ▸ List.mem_map_of_mem CommandInfo.Name (deref_mem t p hp2)) nd.1
      | succ q =>
        have hq2 : q < t.length := by simpa using hq
        rw [deref_cons_succ, deref_cons_succ] at e
        rw [ih nd.2 p q hp2 hq2 e]

theorem exists_deref_of_mem (heap : List CommandInfo) (n : GoString)
    (h : n ∈ heap.map CommandInfo.Name) :
    ∃ p, p < heap.length ∧ (deref heap p).Name = n := by
  rw [List.mem_map] at h
  obtain ⟨c, hc, e⟩ := h
  obtain ⟨p, hp, e2⟩ := List.getElem_of_mem hc
  refine ⟨p, hp, ?_⟩
  simp only [deref]
  rw [List.getD_eq_getElem _ _ hp, e2, e]

theorem sinkLeft_perm (less : Nat → Nat → Bool) (pre : List Nat) (x : Nat) :
    (sinkLeft less pre x).Perm (x :: pre) := by
  induction pre with
  | nil => exact List.Perm.refl _
  | cons p ps ih =>
    simp only [sinkLeft]
    split
    · exact ((List.Perm.cons p ih).trans (List.Perm.swap x p ps))
    · exact List.Perm.refl _

theorem foldl_sinkLeft_perm (less : Nat → Nat → Bool) (l : List Nat) :
    ∀ (acc : List Nat), (l.foldl (sinkLeft less) acc).Perm (l.reverse ++ acc) := by
  induction l with
  | nil => intro acc; exact List.Perm.refl _
  | cons x xs ih =>
    intro acc
    simp only [List.foldl_cons, List.reverse_cons, List.append_assoc, List.singleton_append]
    exact (ih _).trans (List.Perm.append_left _ (sinkLeft_perm less acc x))

theorem insertionSort_perm (less : Nat → Nat → Bool) (l : List Nat) :
    (insertionSort less l).Perm l := by
  unfold insertionSort
  refine (List.reverse_perm _).trans ?_
  have := foldl_sinkLeft_perm less l []
  simp only [List.append_nil] at this
  exact this.trans (List.reverse_perm _)

theorem sinkLeft_sorted (less : Nat → Nat → Bool) (R : Nat → Nat → Prop)
    (asym : ∀ a b, less a b = true → less b a = false)
    (ntr : ∀ a b c, less a c = true → less a b = true ∨ less b c = true)
    (pre : List Nat) (x : Nat)
    (hs : pre.Pairwise (fun b a => less b a = false ∧ (less a b = false → R a b)))
    (hx : ∀ a ∈ pre, R a x) :
    (sinkLeft less pre x).Pairwise (fun b a => less b a = false ∧ (less a b = false → R a b)) := by
  induction pre with
  | nil => simp [sinkLeft]
  | cons p ps ih =>
    rw [List.pairwise_cons] at hs
    simp only [sinkLeft]
    by_cases e : less x p = true
    · simp only [e, if_true]
      rw [List.pairwise_cons]
      refine ⟨?_, ih hs.2 (fun a ha => hx a (List.mem_cons_of_mem _ ha))⟩
      intro a ha
      have hm := (sinkLeft_perm less ps x).mem_iff.1 ha
      rcases List.mem_cons.1 hm with h1 | h1
      · subst h1
        refine ⟨asym _ _ e, ?_⟩
        intro h2
        rw [h2] at e
        exact absurd e (by simp)
      · exact hs.1 a h1
    · have e2 : less x p = false := by simpa using e
      simp only [e2, Bool.false_eq_true, if_false]
      rw [List.pairwise_cons, List.pairwise_cons]
      refine ⟨?_, hs.1, hs.2⟩
      intro a ha
      refine ⟨?_, fun _ => hx a ha⟩
      rcases List.mem_cons.1 ha with h1 | h1
      · subst h1
        exact e2
      · cases h3 : less x a with
        | false => rfl
        | true =>
          rcases ntr x p a h3 with h4 | h4
          · rw [e2] at h4
            exact absurd h4 (by simp)
          · rw [(hs.1 a h1).1] at h4
            exact absurd h4 (by simp)

theorem foldl_sinkLeft_sorted (less : Nat → Nat → Bool) (R : Nat → Nat → Prop)
    (asym : ∀ a b, less a b = true → less b a = false)
    (ntr : ∀ a b c, less a c = true → less a b = true ∨ less b c = true)
    (l : List Nat) :
    ∀ (acc : List Nat),
      acc.Pairwise (fun b a => less b a = false ∧ (less a b = false → R a b)) →
      (∀ a ∈ acc, ∀ x ∈ l, R a x) → l.Pairwise R →
      (l.foldl (sinkLeft less) acc).Pairwise
        (fun b a => less b a = false ∧ (less a b = false → R a b)) := by
  induction l with
  | nil => intro acc h _ _; exact h
  | cons x xs ih =>
    intro acc h1 h2 h3
    rw [List.pairwise_cons] at h3
    simp only [List.foldl_cons]
    apply ih
    · exact sinkLeft_sorted less R asym ntr acc x h1
        (fun a ha => h2 a ha x (List.mem_cons_self _ _))
    · intro a ha y hy
      have hm := (sinkLeft_perm less acc x).mem_iff.1 ha
      rcases List.mem_cons.1 hm with e | e
      · subst e
        exact h3.1 y hy
      · exact h2 a e y (List.mem_cons_of_mem _ hy)
    · exact h3.2

/-- Go's insertion sort is stable: the result is in order, and two elements neither of
which is less than the other keep the order `R` they had in the input. -/
theorem insertionSort_stable (less : Nat → Nat → Bool) (R : Nat → Nat → Prop)
    (asym : ∀ a b, less a b = true → less b a = false)
    (ntr : ∀ a b c, less a c = true → less a b = true ∨ less b c = true)
    (l : List Nat) (hl : l.Pairwise R) :
    (insertionSort less l).Pairwise
      (fun a b => less b a = false ∧ (less a b = false → R a b)) := by
  unfold insertionSort
  rw [List.pairwise_reverse]
  exact foldl_sinkLeft_sorted less R asym ntr l [] List.Pairwise.nil
    (fun a ha => absurd ha (List.not_mem_nil a)) hl

/-- Go's insertion sort meets the contract of `sort.Sort`. -/
theorem insertionSort_contract : SortContract insertionSort := by
  intro less l
  refine ⟨insertionSort_perm less l, ?_⟩
  intro asym ntr
  have h := insertionSort_stable less (fun _ _ => True) asym ntr l
    (List.pairwise_of_forall (fun _ _ => trivial))
  exact h.imp (fun hab => hab.1)

/-! ## Windows -/

theorem render_after {up : UpperFn} (srt : SortFn) (s : Stats) :
    (renderStats srt up s).1.Dirty = true ∨ (renderStats srt up s).1.HasData = false := by
  unfold renderStats
  cases h : s.HasData <;> cases d : s.Dirty <;> simp [h, d]

theorem render_data {up : UpperFn} (srt : SortFn) (s : Stats) (h : s.HasData = true)
    (d : s.Dirty = false) :
    renderStats srt up s =
      ({ s with Slice := srt (Reverse (CommandInfoSlice.Less s.heap)) s.Slice, Dirty := true },
        printRows up s.heap 0 (srt (Reverse (CommandInfoSlice.Less s.heap)) s.Slice)) := by
  simp [renderStats, h, d]

theorem renderedEntries_data (srt : SortFn) (s : Stats) (h : s.HasData = true)
    (d : s.Dirty = false) :
    renderedEntries srt s
      = printedEntries s.heap (srt (Reverse (CommandInfoSlice.Less s.heap)) s.Slice) := by
  simp [renderedEntries, h, d]

/-- The lines of a render that finds data are the lines of the entries it prints. -/
theorem render_lines (srt : SortFn) (up : UpperFn) (s : Stats) (h : s.HasData = true)
    (d : s.Dirty = false) :
    (renderStats srt up s).2 = statRows up 0 (renderedEntries srt s) := by
  rw [render_data srt s h d, renderedEntries_data srt s h d]
  exact printRows_eq_statRows up s.heap _ 0

/-- The state a window starts from has every count at zero. -/
theorem window_start (s : Stats) (w : s.WF) (hz : s.HasData = false → ∀ n, heapCount s.heap n = 0)
    (h : s.Dirty = true ∨ s.HasData = false) :
    (if s.Dirty then s.Clean else s).WF ∧ (if s.Dirty then s.Clean else s).Dirty = false ∧
      ∀ n, heapCount (if s.Dirty then s.Clean else s).heap n = 0 := by
  cases d : s.Dirty with
  | true =>
    simp only [if_true]
    refine ⟨Clean_WF s w, ?_, ?_⟩
    · rw [Clean_dirty s w d]
    · intro n
      rw [Clean_dirty s w d]
      exact heapCount_map_zero _ _
  | false =>
    simp only [Bool.false_eq_true, if_false]
    have hd : s.HasData = false := by
      rcases h with h | h
      · rw [d] at h
        exact absurd h (by simp)
      · exact h
    exact ⟨w, d, hz hd⟩

theorem count_le_length_int (seq : List GoString) (n : GoString) :
    (seq.count n : Int) ≤ (seq.length : Int) := by
  exact_mod_cast List.count_le_length n seq

/-- The entries a data render prints, on a well-formed state with counts that are not
negative: the entries with a count other than zero, each once. -/
theorem render_rows (srt : SortFn) (c : SortContract srt) (s : Stats) (w : s.WF)
    (h : s.HasData = true) (d : s.Dirty = false) (h0 : ∀ n, 0 ≤ heapCount s.heap n) :
    ((renderedEntries srt s).map Prod.fst).Nodup ∧
    ∀ n k, (n, k) ∈ renderedEntries srt s ↔
      (k ≠ 0 ∧ n ∈ s.heap.map CommandInfo.Name ∧ k = heapCount s.heap n) := by
  obtain ⟨_, w2, w3⟩ := w
  have hperm := (c.perm (Reverse (CommandInfoSlice.Less s.heap)) s.Slice).trans w3
  have hlt : ∀ p ∈ srt (Reverse (CommandInfoSlice.Less s.heap)) s.Slice, p < s.heap.length := by
    intro p hp
    exact List.mem_range.1 (hperm.mem_iff.1 hp)
  have hnd : (srt (Reverse (CommandInfoSlice.Less s.heap)) s.Slice).Nodup :=
    hperm.nodup_iff.2 (List.nodup_range _)
  have hE : renderedEntries srt s
      = ((srt (Reverse (CommandInfoSlice.Less s.heap)) s.Slice).filter
          (fun p => decide ((deref s.heap p).Count ≠ 0))).map
          (fun p => ((deref s.heap p).Name, (deref s.heap p).Count)) := by
    rw [renderedEntries_data srt s h d]
    apply printedEntries_eq_filter _ _ (sorted_desc srt c s.heap s.Slice)
    intro p hp
    rw [← heapCount_deref s.heap w2 p (hlt p hp)]
    exact h0 _
  rw [hE]
  refine ⟨?_, ?_⟩
  · rw [List.map_map]
    apply List.Nodup.map_on
    · intro p hp q hq e
      exact deref_name_inj s.heap w2 p q (hlt p (List.mem_filter.1 hp).1)
        (hlt q (List.mem_filter.1 hq).1) e
    · exact hnd.filter _
  · intro n k
    simp only [List.mem_map, List.mem_filter, decide_eq_true_eq, Prod.mk.injEq]
    constructor
    · rintro ⟨p, ⟨hp, hk⟩, e1, e2⟩
      have hl := hlt p hp
      refine ⟨by rw [← e2]; exact hk, ?_, ?_⟩
      · rw [← e1]
        exact ⟨deref s.heap p, deref_mem s.heap p hl, rfl⟩
      · rw [← e1, ← e2]
        exact (heapCount_deref s.heap w2 p hl).symm
    · rintro ⟨hk, hn, e⟩
      have hn2 : n ∈ s.heap.map CommandInfo.Name := List.mem_map.2 hn
      obtain ⟨p, hp, e2⟩ := exists_deref_of_mem s.heap n hn2
      have hc : (deref s.heap p).Count = k := by
        rw [e, ← e2]
        exact (heapCount_deref s.heap w2 p hp).symm
      refine ⟨p, ⟨hperm.mem_iff.2 (List.mem_range.2 hp), ?_⟩, e2, hc⟩
      rw [hc]
      exact hk

theorem statRows_length (up : UpperFn) (es : List (GoString × Int)) :
    ∀ (i : Nat), (statRows up i es).length = es.length := by
  induction es with
  | nil => intro i; rfl
  | cons e t ih => intro i; simp [statRows, ih (i + 1)]

/-- Claim C1 (windowed counting): from a reachable state just after a `renderStats` call,
let a non-empty sequence of names go through the stream step (`Clean` when `Dirty`, then
`Increment`).  Then the count of every name is the number of its occurrences in the
sequence (`0` for the names of earlier windows), and the next `renderStats` prints one
line for each name of the sequence, with that count, and no other line: its lines are
the lines of a list of entries whose names are pairwise distinct and are exactly the
names of the sequence, each with its count; there are as many lines as distinct names.
A line shows the name as `strings.ToUpper` returns it.  The counts are `int64`: the
sequence is shorter than `2^63`. -/
theorem C1_windowed_counting (srt srt2 : SortFn) (up : UpperFn) (c : SortContract srt)
    (c2 : SortContract srt2) (s : Stats) (r : Reachable s) (seq : List GoString)
    (hne : seq ≠ []) (hlen : (seq.length : Int) < 9223372036854775808) :
    (∀ n, (seq.foldl streamStep (renderStats srt up s).1).count n = (seq.count n : Int)) ∧
    (renderStats srt2 up (seq.foldl streamStep (renderStats srt up s).1)).2
      = statRows up 0 (renderedEntries srt2 (seq.foldl streamStep (renderStats srt up s).1)) ∧
    ((renderedEntries srt2 (seq.foldl streamStep (renderStats srt up s).1)).map
      Prod.fst).Nodup ∧
    (∀ n k, (n, k) ∈ renderedEntries srt2 (seq.foldl streamStep (renderStats srt up s).1) ↔
      (n ∈ seq ∧ k = (seq.count n : Int))) ∧
    (renderStats srt2 up (seq.foldl streamStep (renderStats srt up s).1)).2.length
      = seq.dedup.length := by
  have r0 : Reachable (renderStats srt up s).1 := Reachable.render srt s c r
  obtain ⟨w0, z0⟩ := r0.inv
  obtain ⟨zw, zd, zc⟩ := window_start _ w0 z0 (render_after srt s)
  rw [foldl_streamStep seq _ hne]
  generalize (if (renderStats srt up s).1.Dirty then (renderStats srt up s).1.Clean
    else (renderStats srt up s).1) = z at zw zd zc
  have fw : (seq.foldl Stats.Increment z).WF := foldl_Increment_WF seq z zw
  have fc : ∀ n, heapCount (seq.foldl Stats.Increment z).heap n = (seq.count n : Int) := by
    intro n
    have hb := count_le_length_int seq n
    rw [foldl_Increment seq z zw n (by rw [zc n]) (by rw [zc n]; omega), zc n]
    omega
  have fd : (seq.foldl Stats.Increment z).Dirty = false := by
    rw [foldl_Increment_Dirty]
    exact zd
  have fh : (seq.foldl Stats.Increment z).HasData = true := foldl_Increment_HasData seq z hne
  obtain ⟨e2, e3⟩ := render_rows srt2 c2 _ fw fh fd
    (fun n => by rw [fc n]; exact Int.natCast_nonneg _)
  have hiff : ∀ n k, (n, k) ∈ renderedEntries srt2 (seq.foldl Stats.Increment z) ↔
      (n ∈ seq ∧ k = (seq.count n : Int)) := by
    intro n k
    rw [e3 n k, fc n]
    constructor
    · rintro ⟨hk, _, e⟩
      refine ⟨?_, e⟩
      by_contra hn
      rw [List.count_eq_zero_of_not_mem hn] at e
      exact hk (by simpa using e)
    · rintro ⟨hn, e⟩
      have hpos : 0 < seq.count n := List.count_pos_iff.2 hn
      refine ⟨by omega, ?_, e⟩
      by_contra hm
      have := heapCount_not_mem _ _ hm
      rw [fc n] at this
      omega
  have hlines := render_lines srt2 up _ fh fd
  refine ⟨fun n => by rw [count_eq_heapCount _ fw, fc n], hlines, e2, hiff, ?_⟩
  rw [hlines, statRows_length, ← List.length_map (renderedEntries srt2 _) Prod.fst]
  apply List.Perm.length_eq
  rw [List.perm_ext_iff_of_nodup e2 (List.nodup_dedup seq)]
  intro n
  rw [List.mem_dedup, List.mem_map]
  constructor
  · rintro ⟨⟨m, k⟩, hm, rfl⟩
    exact ((hiff m k).1 hm).1
  · intro hn
    exact ⟨(n, (seq.count n : Int)), (hiff n _).2 ⟨hn, rfl⟩, rfl⟩

theorem wrapInt64_range (x : Int) :
    -9223372036854775808 ≤ wrapInt64 x ∧ wrapInt64 x < 9223372036854775808 := by
  unfold wrapInt64
  omega

/-- Every count of a reachable state is an `int64` value. -/
theorem Reachable.range {s : Stats} (r : Reachable s) (n : GoString) :
    -9223372036854775808 ≤ heapCount s.heap n ∧ heapCount s.heap n < 9223372036854775808 := by
  induction r generalizing n with
  | init => simp [NewStats, heapCount]
  | increment s x r ih =>
    rw [Increment_heapCount s x n r.inv.1]
    split
    · exact wrapInt64_range _
    · exact ih n
  | clean s r ih =>
    cases d : s.Dirty with
    | false =>
      rw [Clean_clean s d]
      exact ih n
    | true =>
      rw [Clean_dirty s r.inv.1 d]
      simp only [heapCount_map_zero]
      omega
  | render srt s c _ ih =>
    rw [render_heap]
    exact ih n

theorem deref_map_zero (heap : List CommandInfo) (p : Nat) :
    deref (heap.map (fun c => { c with Count := 0 })) p = { deref heap p with Count := 0 } := by
  induction heap generalizing p with
  | nil => simp [deref]
  | cons a t ih =>
    cases p with
    | zero => simp [deref]
    | succ q =>
      simp only [List.map_cons, deref_cons_succ]
      exact ih q

theorem deref_append_left (heap : List CommandInfo) (a : CommandInfo) (p : Nat)
    (h : p < heap.length) : deref (heap ++ [a]) p = deref heap p := by
  simp only [deref]
  rw [List.getD_eq_getElem _ _ h, List.getD_eq_getElem _ _ (by simp; omega)]
  exact List.getElem_append_left h

theorem deref_append_last (heap : List CommandInfo) (a : CommandInfo) :
    deref (heap ++ [a]) heap.length = a := by
  simp [deref]

theorem deref_setCount (heap : List CommandInfo) (q p : Nat) (c : Int) (hq : q < heap.length) :
    deref (setCount heap q c) p
      = if p = q then { deref heap q with Count := c } else deref heap p := by
  induction heap generalizing q p with
  | nil => simp at hq
  | cons a t ih =>
    cases q with
    | zero =>
      cases p with
      | zero => simp [setCount, deref]
      | succ p => simp [setCount, deref]
    | succ q =>
      have hq2 : q < t.length := by simpa using hq
      rw [setCount_cons_succ]
      cases p with
      | zero => simp [deref]
      | succ p =>
        simp only [deref_cons_succ, ih q p hq2]
        simp

/-- Claim C5 (window reset): in a reachable state with `Dirty` set, `Clean` sets the count
of every entry to `0` (the counts sum to `0`) and keeps every entry of `Data` and `Slice`,
and a following `Increment X` leaves `X` with count `1`, whatever the counts were and
whether or not `X` had an entry. -/
theorem C5_window_reset (s : Stats) (r : Reachable s) (d : s.Dirty = true) (X : GoString) :
    s.Clean.entries = s.entries.map (fun e => (e.1, (0 : Int))) ∧
    (s.Clean.entries.map Prod.snd).sum = 0 ∧
    (∀ n, s.Clean.count n = 0) ∧
    s.Clean.Data = s.Data ∧ s.Clean.Slice = s.Slice ∧
    s.Clean.heap.length = s.heap.length ∧
    (s.Clean.Increment X).count X = 1 := by
  have w := r.inv.1
  have hc := Clean_dirty s w d
  have he : s.Clean.entries = s.entries.map (fun e => (e.1, (0 : Int))) := by
    rw [hc]
    simp only [Stats.entries, List.map_map]
    apply List.map_congr_left
    intro p _
    simp [deref_map_zero]
  have hz : ∀ n, heapCount s.Clean.heap n = 0 := by
    intro n
    rw [hc]
    exact heapCount_map_zero _ _
  refine ⟨he, ?_, ?_, ?_, ?_, ?_, ?_⟩
  · rw [he, List.map_map]
    have : (Prod.snd ∘ fun (e : GoString × Int) => (e.1, (0 : Int))) = fun _ => (0 : Int) := rfl
    rw [this]
    simp
  · intro n
    rw [count_eq_heapCount _ (Clean_WF s w), hz n]
  · rw [hc]
  · rw [hc]
  · rw [hc]
    simp
  · rw [count_eq_heapCount _ (Increment_WF _ X (Clean_WF s w)),
      Increment_heapCount _ X X (Clean_WF s w), hz X]
    simp [wrapInt64]

/-- Claim C6 (postcondition of `Increment`): in a reachable state `Increment name` raises
the count of `name` by one (as `int64`: exactly one below the largest `int64`), an absent
name first getting an entry with count `0` entered in `Data` and appended to `Slice`; it
sets `HasData`, and leaves `Dirty`, the other counts and the order of the entries already
in `Slice` as they were. -/
theorem C6_increment (s : Stats) (r : Reachable s) (name : GoString) :
    (s.Increment name).count name = wrapInt64 (s.count name + 1) ∧
    (s.count name < 9223372036854775807 →
      (s.Increment name).count name = s.count name + 1) ∧
    (∀ n, n ≠ name → (s.Increment name).count n = s.count n) ∧
    (s.Increment name).HasData = true ∧
    (s.Increment name).Dirty = s.Dirty ∧
    (mapGet s.Data name = none →
      s.count name = 0 ∧
      (s.Increment name).Data = s.Data ++ [(name, s.heap.length)] ∧
      (s.Increment name).Slice = s.Slice ++ [s.heap.length] ∧
      (s.Increment name).entries = s.entries ++ [(name, 1)]) ∧
    (mapGet s.Data name ≠ none →
      (s.Increment name).Data = s.Data ∧
      (s.Increment name).Slice = s.Slice ∧
      (s.Increment name).entries
        = s.entries.map (fun e => if e.1 = name then (e.1, wrapInt64 (e.2 + 1)) else e)) := by
  have w := r.inv.1
  have w' := Increment_WF s name w
  have hinc := Increment_heapCount s name
  have hcount : (s.Increment name).count name = wrapInt64 (s.count name + 1) := by
    rw [count_eq_heapCount _ w', count_eq_heapCount _ w, hinc name w]
    simp
  have hslice : ∀ p ∈ s.Slice, p < s.heap.length := fun p hp =>
    List.mem_range.1 (w.2.2.mem_iff.1 hp)
  refine ⟨hcount, ?_, ?_, Increment_HasData s name, Increment_Dirty s name, ?_, ?_⟩
  · intro hlt
    rw [hcount]
    have hr := r.range name
    rw [← count_eq_heapCount _ w] at hr
    apply wrapInt64_id <;> omega
  · intro n hn
    rw [count_eq_heapCount _ w', count_eq_heapCount _ w, hinc n w]
    simp [hn]
  · intro e
    have hnew := Increment_new s name e
    have hx : name ∉ s.heap.map CommandInfo.Name := by
      have e2 := e
      rw [w.1] at e2
      exact (mapGet_dataFrom_none 0 s.heap name).1 e2
    refine ⟨?_, ?_, ?_, ?_⟩
    · rw [count_eq_heapCount _ w]
      exact heapCount_not_mem _ _ hx
    · rw [hnew]
    · rw [hnew]
    · rw [hnew]
      simp only [Stats.entries, List.map_append, List.map_cons, List.map_nil,
        deref_append_last]
      congr 1
      · apply List.map_congr_left
        intro p hp
        rw [deref_append_left _ _ _ (hslice p hp)]
  · intro e
    obtain ⟨q, hq⟩ := Option.ne_none_iff_exists'.1 e
    have hold := Increment_old s name q hq
    have hq2 := hq
    rw [w.1] at hq2
    obtain ⟨_, h2, h3, _⟩ := mapGet_dataFrom_some 0 s.heap name q hq2
    simp only [Nat.zero_add, Nat.sub_zero] at h2 h3
    have hd : deref s.heap q = s.heap.getD q { Name := [], Count := 0 } := rfl
    rw [← hd] at h3
    refine ⟨?_, ?_, ?_⟩
    · rw [hold]
    · rw [hold]
    · rw [hold]
      simp only [Stats.entries, List.map_map]
      apply List.map_congr_left
      intro p hp
      simp only [Function.comp, deref_setCount _ q p _ h2]
      by_cases epq : p = q
      · subst epq
        simp [h3]
      · have hne : ¬ (deref s.heap p).Name = name := by
          intro e3
          apply epq
          exact deref_name_inj s.heap w.2.1 p q (hslice p hp) h2 (by rw [e3, h3])
        simp [epq, hne]

/-- Claim C1 at a concrete window: `B` was counted and rendered, then `get, GET` arrive;
the next render prints one line for each of the two names, both showing `GET`. -/
theorem C1_witness :
    SortContract insertionSort ∧ Reachable (NewStats.Increment (ascii "B")) ∧
    (renderStats insertionSort toUpperASCII ([ascii "get", ascii "GET"].foldl streamStep
        (renderStats insertionSort toUpperASCII (NewStats.Increment (ascii "B"))).1)).2
      = statRows toUpperASCII 0 (renderedEntries insertionSort
          ([ascii "get", ascii "GET"].foldl streamStep
            (renderStats insertionSort toUpperASCII (NewStats.Increment (ascii "B"))).1)) ∧
    renderedEntries insertionSort ([ascii "get", ascii "GET"].foldl streamStep
        (renderStats insertionSort toUpperASCII (NewStats.Increment (ascii "B"))).1)
      = [(ascii "get", 1), (ascii "GET", 1)] ∧
    (renderStats insertionSort toUpperASCII ([ascii "get", ascii "GET"].foldl streamStep
        (renderStats insertionSort toUpperASCII (NewStats.Increment (ascii "B"))).1)).2
      = [Row.stat true 1 (ascii "GET"), Row.stat false 1 (ascii "GET")] :=
  ⟨insertionSort_contract, Reachable.increment _ _ Reachable.init,
    (C1_windowed_counting insertionSort insertionSort toUpperASCII insertionSort_contract
      insertionSort_contract (NewStats.Increment (ascii "B"))
      (Reachable.increment _ _ Reachable.init) [ascii "get", ascii "GET"] (by decide)
      (by decide)).2.1,
    by decide, by decide⟩

/-- Claim C5 at the state left by a render of one counted command. -/
theorem C5_witness :
    Reachable (renderStats insertionSort toUpperASCII (NewStats.Increment (ascii "B"))).1 ∧
    (renderStats insertionSort toUpperASCII (NewStats.Increment (ascii "B"))).1.Dirty = true ∧
    ((renderStats insertionSort toUpperASCII (NewStats.Increment (ascii "B"))).1.Clean.Increment
      (ascii "B")).count (ascii "B") = 1 :=
  ⟨Reachable.render insertionSort _ insertionSort_contract
      (Reachable.increment _ _ Reachable.init),
    by decide,
    (C5_window_reset (renderStats insertionSort toUpperASCII (NewStats.Increment (ascii "B"))).1
      (Reachable.render insertionSort _ insertionSort_contract
        (Reachable.increment _ _ Reachable.init))
      (by decide) (ascii "B")).2.2.2.2.2.2⟩

/-- Claim C6 at the state after one `Increment`. -/
theorem C6_witness :
    Reachable (NewStats.Increment (ascii "A")) ∧
    (NewStats.Increment (ascii "A")).count (ascii "A") < 9223372036854775807 ∧
    ((NewStats.Increment (ascii "A")).Increment (ascii "A")).count (ascii "A")
      = (NewStats.Increment (ascii "A")).count (ascii "A") + 1 :=
  ⟨Reachable.increment _ _ Reachable.init, by decide,
    (C6_increment (NewStats.Increment (ascii "A")) (Reachable.increment _ _ Reachable.init)
      (ascii "A")).2.1 (by decide)⟩

theorem perm_three_sorted (l : List Nat) (f : Nat → Int) (hp : l.Perm [0, 1, 2])
    (hs : l.Pairwise (fun a b => f b ≤ f a)) (h0 : f 0 = 3) (h1 : f 1 = 1) (h2 : f 2 = 2) :
    l = [0, 2, 1] := by
  have hlen := hp.length_eq
  have hnd : l.Nodup := hp.nodup_iff.2 (by decide)
  match l, hlen with
  | [a, b, c], _ =>
    have ha : a ∈ [0, 1, 2] := hp.mem_iff.1 (by simp)
    have hb : b ∈ [0, 1, 2] := hp.mem_iff.1 (by simp)
    have hc : c ∈ [0, 1, 2] := hp.mem_iff.1 (by simp)
    simp only [List.pairwise_cons, List.mem_cons, List.mem_singleton, forall_eq_or_imp,
      forall_eq, List.not_mem_nil, false_implies, implies_true, List.Pairwise.nil, and_true,
      or_false] at hs
    simp only [List.nodup_cons, List.mem_cons, List.mem_singleton, not_or, List.not_mem_nil,
      not_false_eq_true, List.nodup_nil, and_true, or_false] at hnd
    simp only [List.mem_cons, List.mem_singleton, List.not_mem_nil, or_false] at ha hb hc
    obtain ⟨⟨hba, hca⟩, hcb⟩ := hs
    rcases ha with rfl | rfl | rfl <;> rcases hb with rfl | rfl | rfl <;>
      rcases hc with rfl | rfl | rfl <;> simp_all

/-- Claim C7 (descending order): in a state with `HasData` set and `Dirty` clear, the
slice `renderStats` iterates over after sorting is a rearrangement of `Slice` before the
call, no entry lost or doubled, and its counts do not increase; after the increments
`A, A, B, A, C, C` the order is `A(3), C(2), B(1)`.  This holds for every routine that
meets the contract of `sort.Sort`. -/
theorem C7_descending_order (srt : SortFn) (up : UpperFn) (c : SortContract srt) (s : Stats)
    (h : s.HasData = true) (d : s.Dirty = false) :
    (renderStats srt up s).1.Slice.Perm s.Slice ∧
    (renderStats srt up s).1.entries.Perm s.entries ∧
    (renderStats srt up s).1.entries.Pairwise (fun a b => b.2 ≤ a.2) ∧
    (renderStats srt up ([ascii "A", ascii "A", ascii "B", ascii "A", ascii "C", ascii "C"].foldl
        Stats.Increment NewStats)).1.entries
      = [(ascii "A", 3), (ascii "C", 2), (ascii "B", 1)] := by
  refine ⟨?_, ?_, ?_, ?_⟩
  · rw [render_data srt s h d]
    exact c.perm _ _
  · rw [render_data srt s h d]
    exact (c.perm _ _).map _
  · rw [render_data srt s h d]
    simp only [Stats.entries]
    rw [List.pairwise_map]
    exact sorted_desc srt c s.heap s.Slice
  · have hex : [ascii "A", ascii "A", ascii "B", ascii "A", ascii "C", ascii "C"].foldl
        Stats.Increment NewStats
        = { heap := [⟨ascii "A", 3⟩, ⟨ascii "B", 1⟩, ⟨ascii "C", 2⟩]
            Data := [(ascii "A", 0), (ascii "B", 1), (ascii "C", 2)]
            Slice := [0, 1, 2]
            Dirty := false
            HasData := true } := by decide
    rw [hex, render_data srt _ rfl rfl]
    simp only [Stats.entries]
    have hl := perm_three_sorted _
      (fun p => (deref [⟨ascii "A", 3⟩, ⟨ascii "B", 1⟩, ⟨ascii "C", 2⟩] p).Count)
      (c.perm _ [0, 1, 2]) (sorted_desc srt c _ [0, 1, 2]) rfl rfl rfl
    rw [hl]
    rfl

/-- Claim C7 at the state after `B, A, A`, with insertion sort as the routine. -/
theorem C7_witness :
    SortContract insertionSort ∧
    (renderStats insertionSort toUpperASCII ([ascii "B", ascii "A", ascii "A"].foldl Stats.Increment
      NewStats)).1.entries.Pairwise (fun a b => b.2 ≤ a.2) :=
  ⟨insertionSort_contract,
    (C7_descending_order insertionSort toUpperASCII insertionSort_contract
      ([ascii "B", ascii "A", ascii "A"].foldl Stats.Increment NewStats)
      (by decide) (by decide)).2.2.1⟩

theorem printedEntries_eq_takeWhile (heap : List CommandInfo) (l : List Nat) :
    printedEntries heap l
      = (l.takeWhile (fun p => decide ((deref heap p).Count ≠ 0))).map
          (fun p => ((deref heap p).Name, (deref heap p).Count)) := by
  induction l with
  | nil => rfl
  | cons p ps ih =>
    by_cases e : (deref heap p).Count = 0
    · simp [printedEntries, e, List.takeWhile_cons]
    · simp [printedEntries, e, List.takeWhile_cons, ih]

theorem nodup_pairwise_indexOf (l : List Nat) (nd : l.Nodup) :
    l.Pairwise (fun a b => l.indexOf a < l.indexOf b) := by
  induction l with
  | nil => exact List.Pairwise.nil
  | cons x t ih =>
    rw [List.nodup_cons] at nd
    rw [List.pairwise_cons]
    constructor
    · intro b hb
      have hne : x ≠ b := fun e => nd.1 (e ▸ hb)
      rw [List.indexOf_cons_self, List.indexOf_cons_ne _ hne]
      omega
    · refine (ih nd.2).imp_of_mem ?_
      intro a b ha hb hab
      have h1 : x ≠ a := fun e => nd.1 (e ▸ ha)
      have h2 : x ≠ b := fun e => nd.1 (e ▸ hb)
      rw [List.indexOf_cons_ne _ h1, List.indexOf_cons_ne _ h2]
      omega

theorem firstIndex_map_inj (f : Nat → GoString) (a : Nat) (l : List Nat)
    (inj : ∀ y ∈ l, f a = f y → a = y) :
    firstIndex (l.map f) (f a) = l.indexOf a := by
  induction l with
  | nil => rfl
  | cons x t ih =>
    by_cases e : x = a
    · subst e
      simp [firstIndex, List.indexOf_cons_self]
    · have e2 : f x ≠ f a := fun h => e (inj x (List.mem_cons_self _ _) h.symm).symm
      rw [List.map_cons, List.indexOf_cons_ne _ e]
      simp only [firstIndex, e2, if_false]
      rw [ih (fun y hy => inj y (List.mem_cons_of_mem _ hy))]

theorem firstIndex_append_of_mem (l : List GoString) (x a : GoString) (h : a ∈ l) :
    firstIndex (l ++ [x]) a = firstIndex l a := by
  induction l with
  | nil => simp at h
  | cons y t ih =>
    by_cases e : y = a
    · simp [firstIndex, e]
    · have ht : a ∈ t := by
        rcases List.mem_cons.1 h with h1 | h1
        · exact absurd h1.symm e
        · exact h1
      simp [firstIndex, e, ih ht]

theorem firstIndex_append_of_not_mem (l : List GoString) (x : GoString) (h : x ∉ l) :
    firstIndex (l ++ [x]) x = l.length := by
  induction l with
  | nil => simp [firstIndex]
  | cons y t ih =>
    simp only [List.mem_cons, not_or] at h
    have e : ¬ y = x := fun e => h.1 e.symm
    simp [firstIndex, e, ih h.2]

theorem firstIndex_lt_length (l : List GoString) (a : GoString) (h : a ∈ l) :
    firstIndex l a < l.length := by
  induction l with
  | nil => simp at h
  | cons y t ih =>
    by_cases e : y = a
    · simp [firstIndex, e]
    · have ht : a ∈ t := by
        rcases List.mem_cons.1 h with h1 | h1
        · exact absurd h1.symm e
        · exact h1
      simp [firstIndex, e, ih ht]

/-- Ties of a data render by insertion sort: of two entries with the same count the one
that stood first in `Slice` is printed first. -/
theorem render_ties (s : Stats) (h : s.HasData = true) (d : s.Dirty = false)
    (order : List GoString)
    (ho : s.Slice.Pairwise
      (fun a b => firstIndex order (deref s.heap a).Name < firstIndex order (deref s.heap b).Name)) :
    TiesInOrder order (renderedEntries insertionSort s) := by
  unfold TiesInOrder
  rw [renderedEntries_data insertionSort s h d, printedEntries_eq_takeWhile, List.pairwise_map]
  have hst := insertionSort_stable (Reverse (CommandInfoSlice.Less s.heap)) _
    (ReverseLess_asymm s.heap) (ReverseLess_trichotomy s.heap) s.Slice ho
  refine List.Pairwise.sublist (List.takeWhile_sublist _) ?_
  refine hst.imp ?_
  intro a b hab e
  apply hab.2
  simp only [Reverse, CommandInfoSlice.Less, decide_eq_false_iff_not, not_lt]
  simp only at e
  omega

theorem foldl_Increment_append (seq : List GoString) (x : GoString) (s : Stats) :
    (seq ++ [x]).foldl Stats.Increment s = (seq.foldl Stats.Increment s).Increment x := by
  simp [List.foldl_append]

/-- In the first window the records are allocated in the order in which their names
were first seen, and `Slice` lists them in that order. -/
theorem first_window (seq : List GoString) :
    (seq.foldl Stats.Increment NewStats).Slice
        = List.range (seq.foldl Stats.Increment NewStats).heap.length ∧
    (∀ n, n ∈ (seq.foldl Stats.Increment NewStats).heap.map CommandInfo.Name ↔ n ∈ seq) ∧
    ((seq.foldl Stats.Increment NewStats).heap.map CommandInfo.Name).Pairwise
      (fun a b => firstIndex seq a < firstIndex seq b) := by
  induction seq using List.reverseRecOn with
  | nil => simp [NewStats]
  | append_singleton seq x ih =>
    obtain ⟨h1, h2, h3⟩ := ih
    have w := foldl_Increment_WF seq NewStats NewStats_WF
    rw [foldl_Increment_append]
    generalize seq.foldl Stats.Increment NewStats = s at h1 h2 h3 w
    have hold : ∀ a b, a ∈ seq → b ∈ seq → firstIndex seq a < firstIndex seq b →
        firstIndex (seq ++ [x]) a < firstIndex (seq ++ [x]) b := by
      intro a b ha hb hab
      rw [firstIndex_append_of_mem _ _ _ ha, firstIndex_append_of_mem _ _ _ hb]
      exact hab
    cases e : mapGet s.Data x with
    | none =>
      have hx : x ∉ s.heap.map CommandInfo.Name := by
        have e2 := e
        rw [w.1] at e2
        exact (mapGet_dataFrom_none 0 s.heap x).1 e2
      have hxs : x ∉ seq := fun hm => hx ((h2 x).2 hm)
      rw [Increment_new s x e]
      refine ⟨?_, ?_, ?_⟩
      · simp only [List.length_append, List.length_singleton, List.range_succ, h1]
      · intro n
        simp only [List.map_append, List.map_cons, List.map_nil, List.mem_append,
          List.mem_singleton, h2 n]
      · simp only [List.map_append, List.map_cons, List.map_nil]
        rw [List.pairwise_append]
        refine ⟨?_, List.pairwise_singleton _ _, ?_⟩
        · refine h3.imp_of_mem ?_
          intro a b ha hb hab
          exact hold a b ((h2 a).1 ha) ((h2 b).1 hb) hab
        · intro a ha b hb
          simp only [List.mem_singleton] at hb
          subst hb
          have ha2 := (h2 a).1 ha
          rw [firstIndex_append_of_mem _ _ _ ha2, firstIndex_append_of_not_mem _ _ hxs]
          exact firstIndex_lt_length _ _ ha2
    | some p =>
      rw [Increment_old s x p e]
      have hxm : x ∈ seq := by
        rw [← h2 x]
        by_contra hm
        have := (mapGet_dataFrom_none 0 s.heap x).2 hm
        rw [← w.1, e] at this
        exact absurd this (by simp)
      refine ⟨?_, ?_, ?_⟩
      · simp only [setCount_length, h1]
      · intro n
        simp only [setCount_names, List.mem_append, List.mem_singleton, h2 n]
        constructor
        · exact fun hn => Or.inl hn
        · rintro (hn | hn)
          · exact hn
          · rw [hn]
            exact hxm
      · simp only [setCount_names]
        refine h3.imp_of_mem ?_
        intro a b ha hb hab
        exact hold a b ((h2 a).1 ha) ((h2 b).1 hb) hab

theorem pairwise_deref (heap : List CommandInfo) (Q : CommandInfo → CommandInfo → Prop)
    (hq : heap.Pairwise Q) :
    ∀ (a b : Nat), a < b → b < heap.length → Q (deref heap a) (deref heap b) := by
  induction heap with
  | nil => intro a b _ hb; simp at hb
  | cons x t ih =>
    rw [List.pairwise_cons] at hq
    intro a b hab hb
    cases b with
    | zero => omega
    | succ b =>
      have hb2 : b < t.length := by simpa using hb
      cases a with
      | zero => exact hq.1 _ (deref_mem t b hb2)
      | succ a =>
        rw [deref_cons_succ, deref_cons_succ]
        exact ih hq.2 a b (by omega) hb2

/-- Claim C8 as amended (tie-breaking): when `sort.Sort` runs its insertion sort, the
lines of a render are the lines of the entries it prints, in their order, and two of
these entries with the same count are printed in the order they had in `Slice` before
the call; in the first window after the start that is the order in which their names
were first seen. -/
theorem C8_ties_keep_slice_order (up : UpperFn) (s : Stats) (r : Reachable s)
    (h : s.HasData = true) (d : s.Dirty = false) (seq : List GoString) :
    (renderStats insertionSort up s).2 = statRows up 0 (renderedEntries insertionSort s) ∧
    TiesInOrder (s.entries.map Prod.fst) (renderedEntries insertionSort s) ∧
    ((renderStats insertionSort up (seq.foldl streamStep NewStats)).2 = [Row.placeholder] ∨
      (renderStats insertionSort up (seq.foldl streamStep NewStats)).2
        = statRows up 0 (renderedEntries insertionSort (seq.foldl streamStep NewStats))) ∧
    TiesInOrder seq (renderedEntries insertionSort (seq.foldl streamStep NewStats)) := by
  refine ⟨render_lines insertionSort up s h d, ?_, ?_, ?_⟩
  · have w := r.inv.1
    have hnd : s.Slice.Nodup := w.2.2.nodup_iff.2 (List.nodup_range _)
    have hlt : ∀ p ∈ s.Slice, p < s.heap.length := fun p hp =>
      List.mem_range.1 (w.2.2.mem_iff.1 hp)
    apply render_ties s h d
    refine (nodup_pairwise_indexOf s.Slice hnd).imp_of_mem ?_
    intro a b ha hb hab
    have hn : s.entries.map Prod.fst = s.Slice.map (fun p => (deref s.heap p).Name) := by
      simp [Stats.entries, Function.comp_def]
    rw [hn, firstIndex_map_inj (fun p => (deref s.heap p).Name) a s.Slice
        (fun y hy e => deref_name_inj s.heap w.2.1 a y (hlt a ha) (hlt y hy) e),
      firstIndex_map_inj (fun p => (deref s.heap p).Name) b s.Slice
        (fun y hy e => deref_name_inj s.heap w.2.1 b y (hlt b hb) (hlt y hy) e)]
    exact hab
  · rw [foldl_streamStep_clean seq NewStats rfl]
    have fd : (seq.foldl Stats.Increment NewStats).Dirty = false := by
      rw [foldl_Increment_Dirty]
      rfl
    cases hd : (seq.foldl Stats.Increment NewStats).HasData with
    | false =>
      left
      simp [renderStats, hd]
    | true =>
      right
      exact render_lines insertionSort up _ hd fd
  · rw [foldl_streamStep_clean seq NewStats rfl]
    obtain ⟨h1, _, h3⟩ := first_window seq
    have fd : (seq.foldl Stats.Increment NewStats).Dirty = false := by
      rw [foldl_Increment_Dirty]
      rfl
    generalize seq.foldl Stats.Increment NewStats = t at h1 h3 fd
    cases hd : t.HasData with
    | false =>
      simp [TiesInOrder, renderedEntries, hd]
    | true =>
      apply render_ties t hd fd
      rw [h1]
      refine (List.pairwise_lt_range t.heap.length).imp_of_mem ?_
      intro a b ha hb hab
      have h4 : t.heap.Pairwise
          (fun x y => firstIndex seq x.Name < firstIndex seq y.Name) := by
        rw [List.pairwise_map] at h3
        exact h3
      exact pairwise_deref t.heap _ h4 a b hab (List.mem_range.1 hb)

/-- Claim C8 as amended, at the first window `b, a`: the lines show `B` and `A`, and the
entries printed are `b` then `a`, in the order first seen. -/
theorem C8_witness :
    Reachable ((NewStats.Increment (ascii "b")).Increment (ascii "a")) ∧
    (renderStats insertionSort toUpperASCII
        ((NewStats.Increment (ascii "b")).Increment (ascii "a"))).2
      = [Row.stat true 1 (ascii "B"), Row.stat false 1 (ascii "A")] ∧
    renderedEntries insertionSort ((NewStats.Increment (ascii "b")).Increment (ascii "a"))
      = [(ascii "b", 1), (ascii "a", 1)] ∧
    TiesInOrder [ascii "b", ascii "a"]
      (renderedEntries insertionSort ([ascii "b", ascii "a"].foldl streamStep NewStats)) :=
  ⟨Reachable.increment _ _ (Reachable.increment _ _ Reachable.init), by decide, by decide,
    (C8_ties_keep_slice_order toUpperASCII
      ((NewStats.Increment (ascii "b")).Increment (ascii "a"))
      (Reachable.increment _ _ (Reachable.increment _ _ Reachable.init))
      (by decide) (by decide) [ascii "b", ascii "a"]).2.2.2⟩

/-- Claim C8 fails in a later window: `B, A, A` is rendered (which leaves `Slice` as
`A, B`), then `A, B` arrive; the render prints `A(1)` before `B(1)` although `B` was seen
first. -/
theorem C8_counterexample :
    (renderStats insertionSort toUpperASCII ([ascii "A", ascii "B"].foldl streamStep
        (renderStats insertionSort toUpperASCII
          ([ascii "B", ascii "A", ascii "A"].foldl streamStep NewStats)).1)).2
      = [Row.stat true 1 (ascii "A"), Row.stat false 1 (ascii "B")] ∧
    renderedEntries insertionSort ([ascii "A", ascii "B"].foldl streamStep
        (renderStats insertionSort toUpperASCII
          ([ascii "B", ascii "A", ascii "A"].foldl streamStep NewStats)).1)
      = [(ascii "A", 1), (ascii "B", 1)] ∧
    ¬ TiesInOrder [ascii "B", ascii "A", ascii "A", ascii "A", ascii "B"]
      (renderedEntries insertionSort ([ascii "A", ascii "B"].foldl streamStep
        (renderStats insertionSort toUpperASCII
          ([ascii "B", ascii "A", ascii "A"].foldl streamStep NewStats)).1)) := by
  unfold TiesInOrder
  decide

/-! ## The line decoder -/

theorem indexByte_none (s : GoString) (b : Byte) (h : b ∉ s) : indexByte s b = none := by
  induction s with
  | nil => rfl
  | cons c cs ih =>
    simp only [List.mem_cons, not_or] at h
    have e : ¬ c = b := fun e => h.1 e.symm
    simp [indexByte, e, ih h.2]

theorem indexByte_append (P R : GoString) (b : Byte) (h : b ∉ P) :
    indexByte (P ++ b :: R) b = some P.length := by
  induction P with
  | nil => simp [indexByte]
  | cons c cs ih =>
    simp only [List.mem_cons, not_or] at h
    have e : ¬ c = b := fun e => h.1 e.symm
    simp [indexByte, e, ih h.2]

theorem IndexRune_none (s : GoString) (b : Byte) (h : b ∉ s) : IndexRune s b = -1 := by
  simp [IndexRune, indexByte_none s b h]

theorem IndexRune_append (P R : GoString) (b : Byte) (h : b ∉ P) :
    IndexRune (P ++ b :: R) b = (P.length : Int) := by
  simp [IndexRune, indexByte_append P R b h]

theorem sliceFrom_nat (s : GoString) (n : Nat) (h : n ≤ s.length) :
    sliceFrom s (n : Int) = some (s.drop n) := by
  have h2 : (n : Int) ≤ (s.length : Int) := by exact_mod_cast h
  simp [sliceFrom, h2]

theorem sliceRange_nat (s : GoString) (lo hi : Nat) (h1 : lo ≤ hi) (h2 : hi ≤ s.length) :
    sliceRange s (lo : Int) (hi : Int) = some ((s.take hi).drop lo) := by
  have h3 : (lo : Int) ≤ (hi : Int) := by exact_mod_cast h1
  have h4 : (hi : Int) ≤ (s.length : Int) := by exact_mod_cast h2
  simp [sliceRange, h3, h4]

/-- The extraction rule on a line with a bracket followed by a quoted command name. -/
theorem extractCommandName_shape (P C R : GoString) (hP : rbracket ∉ P) (hC : dquote ∉ C) :
    extractCommandName (P ++ rbracket :: space :: dquote :: (C ++ dquote :: R)) = some C := by
  have h1 := IndexRune_append P (space :: dquote :: (C ++ dquote :: R)) rbracket hP
  have e3 : ((P.length : Int) + 3) = ((P.length + 3 : Nat) : Int) := by push_cast; ring
  have hd : (P ++ rbracket :: space :: dquote :: (C ++ dquote :: R)).drop (P.length + 3)
      = C ++ dquote :: R := by
    rw [List.drop_append_eq_append_drop]
    simp
  have hlen : P.length + 3 ≤ (P ++ rbracket :: space :: dquote :: (C ++ dquote :: R)).length := by
    simp only [List.length_append, List.length_cons]
    omega
  have h2 := IndexRune_append C R dquote hC
  have e4 : ((P.length + 3 : Nat) : Int) + (C.length : Int) = ((P.length + 3 + C.length : Nat) : Int) := by
    push_cast; ring
  have hne : ¬ ((P.length : Int) = -1) := by omega
  have hne2 : ¬ ((C.length : Int) = -1) := by omega
  unfold extractCommandName
  simp only [h1, hne, if_false, e3, sliceFrom_nat _ _ hlen, hd, h2, hne2, e4]
  rw [sliceRange_nat _ _ _ (by omega) (by simp only [List.length_append, List.length_cons]; omega)]
  congr 1
  rw [List.drop_take]
  have : P.length + 3 + C.length - (P.length + 3) = C.length := by omega
  rw [this, hd]
  simp

theorem extractCommandName_no_bracket (line : GoString) (h : rbracket ∉ line) :
    extractCommandName line = some [] := by
  simp [extractCommandName, IndexRune_none line rbracket h]

/-- Claim C4 (extraction rule): `extractCommandName` gives the empty string for a line
without `]`; for a line `P ++ "] \"" ++ C ++ "\"" ++ R` with no `]` in `P` and no `"` in
`C` it gives `C`; the line `1634 [0 127.0.0.1:1] "SET" "foo" "bar"` gives `SET`. -/
theorem C4_extraction_rule (line P C R : GoString) (hl : rbracket ∉ line) (hP : rbracket ∉ P)
    (hC : dquote ∉ C) :
    extractCommandName line = some [] ∧
    extractCommandName (P ++ rbracket :: space :: dquote :: (C ++ dquote :: R)) = some C ∧
    extractCommandName (ascii "1634 [0 127.0.0.1:1] \"SET\" \"foo\" \"bar\"") = some (ascii "SET") :=
  ⟨extractCommandName_no_bracket line hl, extractCommandName_shape P C R hP hC, by decide⟩

/-- Claim C4 at the lines `+PONG` and `1634 [0 127.0.0.1:1] "GET" "foo"`. -/
theorem C4_witness :
    rbracket ∉ ascii "+PONG\r\n" ∧ rbracket ∉ ascii "1634 [0 127.0.0.1:1" ∧
    dquote ∉ ascii "GET" ∧
    extractCommandName (ascii "+PONG\r\n") = some [] ∧
    extractCommandName (ascii "1634 [0 127.0.0.1:1" ++ rbracket :: space :: dquote ::
      (ascii "GET" ++ dquote :: ascii " \"foo\"\r\n")) = some (ascii "GET") :=
  ⟨by decide, by decide, by decide,
    (C4_extraction_rule (ascii "+PONG\r\n") (ascii "1634 [0 127.0.0.1:1") (ascii "GET")
      (ascii " \"foo\"\r\n") (by decide) (by decide) (by decide)).1,
    (C4_extraction_rule (ascii "+PONG\r\n") (ascii "1634 [0 127.0.0.1:1") (ascii "GET")
      (ascii " \"foo\"\r\n") (by decide) (by decide) (by decide)).2.1⟩

theorem Split_no_sep (t : GoString) (sep : Byte) (h : sep ∉ t) : Split t sep = [t] := by
  induction t with
  | nil => rfl
  | cons c cs ih =>
    simp only [List.mem_cons, not_or] at h
    have e : ¬ c = sep := fun e => h.1 e.symm
    simp [Split, e, ih h.2]

theorem Split_append (t r : GoString) (sep : Byte) (h : sep ∉ t) :
    Split (t ++ sep :: r) sep = t :: Split r sep := by
  induction t with
  | nil => simp [Split]
  | cons c cs ih =>
    simp only [List.mem_cons, not_or] at h
    have e : ¬ c = sep := fun e => h.1 e.symm
    simp [Split, e, ih h.2]

theorem Split_ne_nil (s : GoString) (sep : Byte) : Split s sep ≠ [] := by
  induction s with
  | nil => simp [Split]
  | cons c cs ih =>
    simp only [Split]
    split
    · simp
    · split <;> simp

theorem space_not_mem_quoted (t : GoString) (h : space ∉ t) : space ∉ quoted t := by
  simp only [quoted, List.mem_cons, List.mem_append, List.mem_singleton, not_or, List.not_mem_nil,
    or_false]
  exact ⟨by decide, h, by decide⟩

theorem rbracket_mem_monitorLine (pre cmd : GoString) (args : List GoString) (term : GoString) :
    rbracket ∈ monitorLine pre cmd args term := by
  simp [monitorLine]

/-- The command name of a line of the documented form. -/
theorem extractCommandName_monitorLine (pre cmd : GoString) (args : List GoString)
    (term : GoString) (hpre : rbracket ∉ pre) (hcmd : dquote ∉ cmd) :
    extractCommandName (monitorLine pre cmd args term) = some cmd := by
  have h : ∃ R, monitorLine pre cmd args term
      = pre ++ rbracket :: space :: dquote :: (cmd ++ dquote :: R) := by
    cases args with
    | nil => exact ⟨term, by simp [monitorLine, joinTokens, quoted]⟩
    | cons a as =>
      exact ⟨space :: joinTokens (quoted a :: as.map quoted) ++ term, by
        simp [monitorLine, joinTokens, quoted]⟩
  obtain ⟨R, hR⟩ := h
  rw [hR]
  exact extractCommandName_shape pre cmd R hpre hcmd

/-- The text `saveCommandValue` splits: what follows the bracket and the space. -/
theorem sliceFrom_monitorLine (pre cmd : GoString) (args : List GoString) (term : GoString)
    (hpre : rbracket ∉ pre) :
    sliceFrom (monitorLine pre cmd args term)
        (IndexRune (monitorLine pre cmd args term) rbracket + 2)
      = some (joinTokens (quoted cmd :: args.map quoted) ++ term) := by
  unfold monitorLine
  rw [IndexRune_append pre _ rbracket hpre]
  have e : ((pre.length : Int) + 2) = ((pre.length + 2 : Nat) : Int) := by push_cast; ring
  rw [e, sliceFrom_nat _ _ (by simp only [List.length_append, List.length_cons]; omega),
    List.drop_append_eq_append_drop]
  simp

/-- A command without arguments: `cmd[1]` is out of range. -/
theorem saveCommandValue_no_args (pre cmd term : GoString) (hpre : rbracket ∉ pre)
    (hcmd : space ∉ cmd) (hterm : space ∉ term) :
    saveCommandValue (monitorLine pre cmd [] term) = none := by
  unfold saveCommandValue
  simp only [sliceFrom_monitorLine pre cmd [] term hpre, List.map_nil, joinTokens]
  have hs : space ∉ quoted cmd ++ term := by
    rw [List.mem_append, not_or]
    exact ⟨space_not_mem_quoted cmd hcmd, hterm⟩
  rw [Split_no_sep _ _ hs]

/-- A command with at least one argument reaches the dispatch. -/
theorem saveCommandValue_with_args (pre cmd a : GoString) (as : List GoString)
    (term : GoString) (hpre : rbracket ∉ pre) (hcmd : space ∉ cmd) :
    ∃ key val, saveCommandValue (monitorLine pre cmd (a :: as) term)
      = some (dispatch (quoted cmd) key val) := by
  unfold saveCommandValue
  simp only [sliceFrom_monitorLine pre cmd (a :: as) term hpre, List.map_cons, joinTokens,
    List.append_assoc, List.cons_append]
  rw [Split_append _ _ _ (space_not_mem_quoted cmd hcmd)]
  cases h : Split (joinTokens (quoted a :: as.map quoted) ++ term) space with
  | nil => exact absurd h (Split_ne_nil _ _)
  | cons key val => exact ⟨key, val, rfl⟩

/-- Claim C10 at the line `1634 [0 127.0.0.1:1] "PING"`: the name `PING` is extracted,
but `saveCommandValue` panics at `cmd[1]`, and with it the round of the read loop. -/
theorem C10_failing_input :
    extractCommandName (ascii "1634 [0 127.0.0.1:1] \"PING\"\r\n") = some (ascii "PING") ∧
    saveCommandValue (ascii "1634 [0 127.0.0.1:1] \"PING\"\r\n") = none ∧
    processLine NewStats (ascii "1634 [0 127.0.0.1:1] \"PING\"\r\n") = Outcome.panic := by
  decide

theorem saveCommandValue_geoadd (pre key lon lat member term : GoString)
    (hpre : rbracket ∉ pre) (hk : space ∉ key) (hlon : space ∉ lon) (hlat : space ∉ lat)
    (hm : space ∉ member) (ht : space ∉ term) :
    saveCommandValue (monitorLine pre (ascii "GEOADD") [key, lon, lat, member] term)
      = some [Printed.geo (quoted key)
          [{ Long := quoted lon, Lat := quoted lat, Member := quoted member ++ term }]] := by
  unfold saveCommandValue
  simp only [sliceFrom_monitorLine pre _ _ term hpre, List.map_cons, List.map_nil, joinTokens,
    List.append_assoc, List.cons_append]
  have hlast : space ∉ quoted member ++ term := by
    rw [List.mem_append, not_or]
    exact ⟨space_not_mem_quoted member hm, ht⟩
  rw [Split_append _ _ _ (space_not_mem_quoted _ (by decide)),
    Split_append _ _ _ (space_not_mem_quoted key hk),
    Split_append _ _ _ (space_not_mem_quoted lon hlon),
    Split_append _ _ _ (space_not_mem_quoted lat hlat),
    Split_no_sep _ _ hlast]
  have hb : quoted (ascii "GEOADD") = ascii "\"GEOADD\"" := by decide
  have h1 : ¬ ascii "\"GEOADD\"" = ascii "\"HSET\"" := by decide
  have h2 : ¬ ascii "\"GEOADD\"" = ascii "\"HMSET\"" := by decide
  have h3 : ¬ ascii "\"GEOADD\"" = ascii "\"SET\"" := by decide
  simp only [hb, dispatch, h1, h2, h3, if_false, if_true]
  rw [saveGeoKind_eq _ _ (by simp)]
  rfl

/-- Claim C9 as amended (end to end): from `NewStats`, the line `+OK` is skipped, and a
line `<pre>] "GEOADD" "key" "lon" "lat" "member"` followed by its terminator, with no `]`
before the bracket and no space inside the arguments or the terminator, leaves `GEOADD`
with count `1` as the only entry and prints one `GeoVal` whose `Long` and `Lat` are the
longitude and latitude tokens with their quotes and whose `Member` is the quoted member
token followed by the terminator. -/
theorem C9_end_to_end (pre key lon lat member term : GoString)
    (hpre : rbracket ∉ pre)
    (herr : startsWith (monitorLine pre (ascii "GEOADD") [key, lon, lat, member] term)
      (ascii "-ERR ") = false)
    (hk : space ∉ key) (hlon : space ∉ lon) (hlat : space ∉ lat) (hm : space ∉ member)
    (ht : space ∉ term) :
    processLine NewStats (ascii "+OK\r\n") = Outcome.next NewStats [] ∧
    processLine NewStats (monitorLine pre (ascii "GEOADD") [key, lon, lat, member] term)
      = Outcome.next (NewStats.Increment (ascii "GEOADD"))
          [Printed.geo (quoted key)
            [{ Long := quoted lon, Lat := quoted lat, Member := quoted member ++ term }]] ∧
    (NewStats.Increment (ascii "GEOADD")).entries = [(ascii "GEOADD", 1)] ∧
    (NewStats.Increment (ascii "GEOADD")).Data = [(ascii "GEOADD", 0)] ∧
    (NewStats.Increment (ascii "GEOADD")).count (ascii "GEOADD") = 1 := by
  refine ⟨by decide, ?_, by decide, by decide, by decide⟩
  have hne : monitorLine pre (ascii "GEOADD") [key, lon, lat, member] term ≠ ascii "+OK\r\n" := by
    intro e
    have h1 := rbracket_mem_monitorLine pre (ascii "GEOADD") [key, lon, lat, member] term
    rw [e] at h1
    exact absurd h1 (by decide)
  have hlen : (monitorLine pre (ascii "GEOADD") [key, lon, lat, member] term).length > 0 := by
    apply List.length_pos.2
    intro e
    have h1 := rbracket_mem_monitorLine pre (ascii "GEOADD") [key, lon, lat, member] term
    rw [e] at h1
    exact absurd h1 (List.not_mem_nil _)
  unfold processLine
  simp only [hlen, if_true, hne, if_false, herr, Bool.false_eq_true,
    extractCommandName_monitorLine pre (ascii "GEOADD") _ term hpre (by decide),
    saveCommandValue_geoadd pre key lon lat member term hpre hk hlon hlat hm ht]
  rfl

/-- Claim C9 as amended, at a `GEOADD` line ending in `\r\n`. -/
theorem C9_witness :
    processLine NewStats
        (monitorLine (ascii "1634 [0 127.0.0.1:1") (ascii "GEOADD")
          [ascii "Sicily", ascii "13.36", ascii "38.11", ascii "Palermo"] (ascii "\r\n"))
      = Outcome.next (NewStats.Increment (ascii "GEOADD"))
          [Printed.geo (quoted (ascii "Sicily"))
            [{ Long := quoted (ascii "13.36"), Lat := quoted (ascii "38.11"),
               Member := quoted (ascii "Palermo") ++ ascii "\r\n" }]] :=
  (C9_end_to_end (ascii "1634 [0 127.0.0.1:1") (ascii "Sicily") (ascii "13.36") (ascii "38.11")
    (ascii "Palermo") (ascii "\r\n") (by decide) (by decide) (by decide) (by decide)
    (by decide) (by decide) (by decide)).2.1

/-- Claim C9 fails at a `GEOADD` line as it comes off the wire: the fields of the record
are not the argument texts; they keep the quotes, and `Member` the line terminator. -/
theorem C9_counterexample :
    monitorLine (ascii "1634 [0 127.0.0.1:1") (ascii "GEOADD")
        [ascii "Sicily", ascii "13.36", ascii "38.11", ascii "Palermo"] (ascii "\r\n")
      = ascii "1634 [0 127.0.0.1:1] \"GEOADD\" \"Sicily\" \"13.36\" \"38.11\" \"Palermo\"\r\n" ∧
    processLine NewStats
        (ascii "1634 [0 127.0.0.1:1] \"GEOADD\" \"Sicily\" \"13.36\" \"38.11\" \"Palermo\"\r\n")
      = Outcome.next (NewStats.Increment (ascii "GEOADD"))
          [Printed.geo (ascii "\"Sicily\"")
            [{ Long := ascii "\"13.36\"", Lat := ascii "\"38.11\"",
               Member := ascii "\"Palermo\"\r\n" }]] ∧
    ascii "\"13.36\"" ≠ ascii "13.36" ∧ ascii "\"38.11\"" ≠ ascii "38.11" ∧
    ascii "\"Palermo\"\r\n" ≠ ascii "Palermo" ∧ ascii "\"Palermo\"\r\n" ≠ ascii "\"Palermo\"" := by
  decide

/-! ## Lines outside the documented form -/

/-- Claim C11 at the line `1634 [0 127.0.0.1:1]` ended by a line feed: the bracket is the
second-to-last byte, `cmdStart` is past the end of the line and `command[cmdStart:]`
panics; so does the round of the read loop.  The same happens when `]` is the last
byte. -/
theorem C11_failing_input :
    extractCommandName (ascii "1634 [0 127.0.0.1:1]\n") = none ∧
    extractCommandName (ascii "1634 [0 127.0.0.1:1]") = none ∧
    processLine NewStats (ascii "1634 [0 127.0.0.1:1]\n") = Outcome.panic := by
  decide

theorem indexByte_lt_length (s : GoString) (b : Byte) (j : Nat)
    (h : indexByte s b = some j) : j < s.length := by
  induction s generalizing j with
  | nil => simp [indexByte] at h
  | cons c cs ih =>
    simp only [indexByte] at h
    split at h
    · simp only [Option.some.injEq] at h
      subst h
      simp
    · cases hr : indexByte cs b with
      | none => simp [hr] at h
      | some k =>
        simp only [hr, Option.map_some', Option.some.injEq] at h
        subst h
        have := ih k hr
        simp only [List.length_cons]
        omega

/-- When `extractCommandName` panics: exactly when a `]` occurs and fewer than two bytes
follow its first occurrence. -/
theorem extractCommandName_none_iff (line : GoString) :
    extractCommandName line = none ↔
      ∃ i, indexByte line rbracket = some i ∧ line.length < i + 3 := by
  unfold extractCommandName IndexRune
  cases h : indexByte line rbracket with
  | none => simp
  | some i =>
    have hne : ¬ ((i : Int) = -1) := by omega
    simp only [hne, if_false, Option.some.injEq, exists_eq_left']
    have e3 : ((i : Int) + 3) = ((i + 3 : Nat) : Int) := by push_cast; ring
    rw [e3]
    by_cases hl : i + 3 ≤ line.length
    · rw [sliceFrom_nat line (i + 3) hl]
      simp only
      constructor
      · intro hn
        exfalso
        cases hq : indexByte (List.drop (i + 3) line) dquote with
        | none => simp [hq] at hn
        | some j =>
          have hj : ¬ ((j : Int) = -1) := by omega
          simp only [hq, hj, if_false] at hn
          have hjl := indexByte_lt_length _ _ _ hq
          simp only [List.length_drop] at hjl
          have e4 : ((i + 3 : Nat) : Int) + (j : Int) = ((i + 3 + j : Nat) : Int) := by
            push_cast; ring
          rw [e4, sliceRange_nat line (i + 3) (i + 3 + j) (by omega) (by omega)] at hn
          simp at hn
      · intro hlt
        omega
    · have hl2 : ¬ (((i + 3 : Nat) : Int) ≤ (line.length : Int)) := by
        intro hc
        exact hl (by exact_mod_cast hc)
      simp only [sliceFrom, hl2, and_false, if_false, true_iff]
      omega

/-- Claim C15 at the line of a client connected over IPv6: the first `]` is the one
inside the address `[::1]:50000`, and the text returned is `0000] `, not `SET`. -/
theorem C15_failing_input :
    extractCommandName (ascii "1634 [0 [::1]:50000] \"SET\" \"foo\" \"bar\"\r\n")
      = some (ascii "0000] ") ∧
    extractCommandName (ascii "1634 [0 [::1]:50000] \"SET\" \"foo\" \"bar\"\r\n")
      ≠ some (ascii "SET") ∧
    dquote ∉ ascii "1634" ∧ dquote ∉ ascii "0" ∧ dquote ∉ ascii "[::1]:50000" ∧
    ascii "1634 [0 [::1]:50000] \"SET\" \"foo\" \"bar\"\r\n"
      = ascii "1634" ++ ascii " [" ++ ascii "0" ++ ascii " " ++ ascii "[::1]:50000"
          ++ ascii "] \"" ++ ascii "SET" ++ ascii "\" \"foo\" \"bar\"\r\n" := by
  decide

theorem Split_two_of_mem (t : GoString) (h : space ∈ t) :
    ∃ a b rest, Split t space = a :: b :: rest := by
  induction t with
  | nil => simp at h
  | cons c cs ih =>
    by_cases e : c = space
    · cases hs : Split cs space with
      | nil => exact absurd hs (Split_ne_nil _ _)
      | cons b rest => exact ⟨[], b, rest, by simp [Split, e, hs]⟩
    · have hc : space ∈ cs := by
        rcases List.mem_cons.1 h with h1 | h1
        · exact absurd h1.symm e
        · exact h1
      obtain ⟨a, b, rest, hs⟩ := ih hc
      exact ⟨c :: a, b, rest, by simp [Split, e, hs]⟩

/-- On a line without a bracket `saveCommandValue` splits the line from its second byte
on, and reaches the dispatch when a space occurs there. -/
theorem saveCommandValue_no_bracket (line : GoString) (hne : line ≠ []) (hb : rbracket ∉ line)
    (hsp : space ∈ line.tail) : ∃ out, saveCommandValue line = some out := by
  obtain ⟨a, b, rest, hs⟩ := Split_two_of_mem line.tail hsp
  have hlen : 1 ≤ line.length := List.length_pos.2 hne
  have h1 := sliceFrom_nat line 1 hlen
  have e1 : IndexRune line rbracket + 2 = ((1 : Nat) : Int) := by
    rw [IndexRune_none line rbracket hb]
    rfl
  refine ⟨dispatch a b rest, ?_⟩
  unfold saveCommandValue
  simp only [e1, h1, List.drop_one, hs]

theorem streamStep_mapGet (s : Stats) (x : GoString) : mapGet (streamStep s x).Data x ≠ none := by
  unfold streamStep
  generalize (if s.Dirty = true then s.Clean else s) = t
  have h := ensure_mapGet t x
  cases e : mapGet t.Data x with
  | none =>
    rw [Increment_new t x e]
    simp only
    rw [mapGet_append_none _ _ _ e]
    simp
  | some p =>
    rw [Increment_old t x p e]
    simp [e]

theorem Increment_count (s : Stats) (w : s.WF) (x : GoString) :
    (s.Increment x).count x = wrapInt64 (s.count x + 1) := by
  rw [count_eq_heapCount _ (Increment_WF s x w), count_eq_heapCount _ w,
    Increment_heapCount s x x w]
  simp

theorem Clean_count (s : Stats) (w : s.WF) (d : s.Dirty = true) (n : GoString) :
    s.Clean.count n = 0 := by
  rw [count_eq_heapCount _ (Clean_WF s w), Clean_dirty s w d]
  exact heapCount_map_zero _ _

/-- Claim C12 as amended: a non-empty line without `]` that is neither the
acknowledgement nor an `-ERR ` line, and has a space after its first byte, is counted as
an event with the empty command name: the round of the read loop continues with the
state of the stream step for the name `""`, which has an entry for `""`; its count is `1`
when a reset was pending and the `int64` value of the old count plus one otherwise. -/
theorem C12_bracketless_line_is_counted (s : Stats) (r : Reachable s) (line : GoString)
    (hne : line ≠ []) (hb : rbracket ∉ line) (hack : line ≠ ascii "+OK\r\n")
    (herr : startsWith line (ascii "-ERR ") = false) (hsp : space ∈ line.tail) :
    extractCommandName line = some [] ∧
    (∃ out, processLine s line = Outcome.next (streamStep s []) out) ∧
    mapGet (streamStep s []).Data [] ≠ none ∧
    (streamStep s []).HasData = true ∧
    (s.Dirty = true → (streamStep s []).count [] = 1) ∧
    (s.Dirty = false → (streamStep s []).count [] = wrapInt64 (s.count [] + 1)) ∧
    (s.Dirty = false → s.count [] < 9223372036854775807 →
      (streamStep s []).count [] = s.count [] + 1) := by
  have hx := extractCommandName_no_bracket line hb
  obtain ⟨out, ho⟩ := saveCommandValue_no_bracket line hne hb hsp
  have hlen : line.length > 0 := List.length_pos.2 hne
  refine ⟨hx, ⟨out, ?_⟩, streamStep_mapGet s [], ?_, ?_, ?_, ?_⟩
  · unfold processLine
    simp only [hlen, if_true, hack, if_false, herr, Bool.false_eq_true, hx, ho]
  · unfold streamStep
    exact Increment_HasData _ _
  · intro d
    simp only [streamStep, d, if_true]
    rw [Increment_count _ (Clean_WF s r.inv.1), Clean_count s r.inv.1 d]
    decide
  · intro d
    simp only [streamStep, d, Bool.false_eq_true, if_false]
    exact Increment_count s r.inv.1 []
  · intro d hlt
    simp only [streamStep, d, Bool.false_eq_true, if_false]
    rw [Increment_count s r.inv.1 []]
    have hr := r.range []
    rw [← count_eq_heapCount _ r.inv.1] at hr
    apply wrapInt64_id <;> omega

theorem C12_witness :
    Reachable NewStats ∧ rbracket ∉ ascii "-NOAUTH Authentication required.\r\n" ∧
    (streamStep NewStats []).count [] = NewStats.count [] + 1 :=
  ⟨Reachable.init, by decide,
    (C12_bracketless_line_is_counted NewStats Reachable.init
      (ascii "-NOAUTH Authentication required.\r\n") (by decide) (by decide) (by decide)
      (by decide) (by decide)).2.2.2.2.2.2 (by decide) (by decide)⟩

/-- Claim C12 fails at the reply `-NOAUTH Authentication required.` of a server that wants
a password: the line has no `]`, is not the acknowledgement and does not start with
`-ERR `, and the round of the read loop leaves an entry for the empty name, with count
`1`, in an aggregator that had no entry. -/
theorem C12_counterexample :
    ascii "-NOAUTH Authentication required.\r\n" ≠ [] ∧
    rbracket ∉ ascii "-NOAUTH Authentication required.\r\n" ∧
    ascii "-NOAUTH Authentication required.\r\n" ≠ ascii "+OK\r\n" ∧
    startsWith (ascii "-NOAUTH Authentication required.\r\n") (ascii "-ERR ") = false ∧
    processLine NewStats (ascii "-NOAUTH Authentication required.\r\n")
      = Outcome.next (NewStats.Increment []) [] ∧
    NewStats.entries = [] ∧
    (NewStats.Increment []).entries = [([], 1)] ∧
    (NewStats.Increment []).entries ≠ NewStats.entries := by
  decide

/-! ## The tokens of a line -/

theorem appendLast_length : ∀ (l : List GoString) (term : GoString),
    (appendLast l term).length = l.length
  | [], _ => rfl
  | [_], _ => rfl
  | _ :: u :: ts, term => by
    simp only [appendLast, List.length_cons, appendLast_length (u :: ts) term]

theorem appendLast_get_init : ∀ (l : List GoString) (term : GoString) (i : Nat) (a : GoString),
    i + 1 < l.length → l[i]? = some a → (appendLast l term)[i]? = some a
  | [], _, _, _ => by simp
  | [_], _, i, _ => by
    intro h
    simp at h
  | t :: u :: ts, term, 0, a => by
    intro _ h
    simpa [appendLast] using h
  | t :: u :: ts, term, i + 1, a => by
    intro hl h
    simp only [List.getElem?_cons_succ] at h
    simp only [appendLast, List.getElem?_cons_succ]
    exact appendLast_get_init (u :: ts) term i a (by simpa using hl) h

theorem appendLast_get_last : ∀ (l : List GoString) (term : GoString) (a : GoString),
    l[l.length - 1]? = some a → (appendLast l term)[l.length - 1]? = some (a ++ term)
  | [], _, _ => by simp
  | [t], term, a => by
    intro h
    simp only [List.length_singleton, Nat.sub_self, List.getElem?_cons_zero,
      Option.some.injEq] at h
    simp [appendLast, h]
  | t :: u :: ts, term, a => by
    intro h
    have e : (t :: u :: ts).length - 1 = ((u :: ts).length - 1) + 1 := by simp
    rw [e] at h ⊢
    simp only [List.getElem?_cons_succ] at h
    simp only [appendLast, List.getElem?_cons_succ]
    exact appendLast_get_last (u :: ts) term a h

theorem mem_appendLast : ∀ (l : List GoString) (term : GoString) (t : GoString),
    t ∈ appendLast l term → ∃ a ∈ l, t = a ∨ t = a ++ term
  | [], _, _ => by simp [appendLast]
  | [x], term, t => by
    intro h
    simp only [appendLast, List.mem_singleton] at h
    exact ⟨x, by simp, Or.inr h⟩
  | x :: u :: ts, term, t => by
    intro h
    simp only [appendLast, List.mem_cons] at h
    rcases h with h | h
    · exact ⟨x, by simp, Or.inl h⟩
    · obtain ⟨a, ha, hat⟩ := mem_appendLast (u :: ts) term t (by simpa using h)
      exact ⟨a, List.mem_cons_of_mem _ ha, hat⟩

theorem appendLast_ne_nil (l : List GoString) (term : GoString) (h : l ≠ []) :
    appendLast l term ≠ [] := by
  intro e
  have := appendLast_length l term
  rw [e] at this
  exact h (List.length_eq_zero.1 this.symm)

/-- Splitting space-free tokens written with one space between them gives the tokens
back, the last one with the rest of the line. -/
theorem Split_joinTokens : ∀ (toks : List GoString) (term : GoString),
    toks ≠ [] → (∀ t ∈ toks, space ∉ t) → space ∉ term →
      Split (joinTokens toks ++ term) space = appendLast toks term
  | [], _ => by
    intro h
    exact absurd rfl h
  | [t], term => by
    intro _ ht hterm
    have hs : space ∉ t ++ term := by
      rw [List.mem_append, not_or]
      exact ⟨ht t (by simp), hterm⟩
    simp only [joinTokens, appendLast]
    exact Split_no_sep _ _ hs
  | t :: u :: ts, term => by
    intro _ ht hterm
    simp only [joinTokens, appendLast, List.append_assoc, List.cons_append]
    rw [Split_append _ _ _ (ht t (by simp)),
      Split_joinTokens (u :: ts) term (by simp) (fun x hx => ht x (List.mem_cons_of_mem _ hx))
        hterm]

theorem saveCommandValue_tokens (command : GoString) :
    saveCommandValue command =
      match commandTokens command with
      | some (base :: key :: val) => some (dispatch base key val)
      | _ => none := by
  unfold saveCommandValue commandTokens
  dsimp only
  cases h : sliceFrom command (IndexRune command rbracket + 2) with
  | none => rfl
  | some rest =>
    dsimp only
    cases h2 : Split rest space with
    | nil => rfl
    | cons a t =>
      cases t with
      | nil => rfl
      | cons b r => rfl

/-- The tokens of a line of the documented form whose command name and arguments hold
no space. -/
theorem commandTokens_monitorLine (pre cmd : GoString) (args : List GoString) (term : GoString)
    (hpre : rbracket ∉ pre) (hcmd : space ∉ cmd) (hargs : ∀ a ∈ args, space ∉ a)
    (hterm : space ∉ term) :
    commandTokens (monitorLine pre cmd args term)
      = some (appendLast (quoted cmd :: args.map quoted) term) := by
  unfold commandTokens
  rw [sliceFrom_monitorLine pre cmd args term hpre]
  simp only
  rw [Split_joinTokens _ term (by simp) ?_ hterm]
  intro t ht
  rcases List.mem_cons.1 ht with h | h
  · rw [h]
    exact space_not_mem_quoted cmd hcmd
  · obtain ⟨a, ha, e⟩ := List.mem_map.1 h
    rw [← e]
    exact space_not_mem_quoted a (hargs a ha)

/-- Claim C13 as amended: on a line of the documented form with no `]` before the closing
bracket and `n ≥ 1` arguments, where neither the command name, nor an argument, nor what
ends the line holds a space, `saveCommandValue` obtains after the command token exactly
`n` tokens (the key and the values it hands to the dispatch, which a `SET` line prints):
the `i`-th is the `i`-th argument in its quotes, and the last is also followed by what
ends the line. -/
theorem C13_tokens_without_spaces (pre cmd : GoString) (args : List GoString)
    (term : GoString) (hpre : rbracket ∉ pre) (hcmd : space ∉ cmd)
    (hargs : ∀ a ∈ args, space ∉ a) (hterm : space ∉ term) (hne : args ≠ []) :
    (∃ key val, appendLast (args.map quoted) term = key :: val ∧
      saveCommandValue (monitorLine pre cmd args term)
        = some (dispatch (quoted cmd) key val) ∧
      saveCommandValue (monitorLine pre (ascii "SET") args term)
        = some [Printed.set (ascii "\"SET\"") key val]) ∧
    commandTokens (monitorLine pre cmd args term)
      = some (quoted cmd :: appendLast (args.map quoted) term) ∧
    (appendLast (args.map quoted) term).length = args.length ∧
    (∀ (i : Nat) (a : GoString), i + 1 < args.length → args[i]? = some a →
      (appendLast (args.map quoted) term)[i]? = some (quoted a)) ∧
    (∀ (a : GoString), args[args.length - 1]? = some a →
      (appendLast (args.map quoted) term)[args.length - 1]? = some (quoted a ++ term)) := by
  have htok : ∀ (c : GoString), space ∉ c →
      commandTokens (monitorLine pre c args term)
        = some (quoted c :: appendLast (args.map quoted) term) := by
    intro c hc
    rw [commandTokens_monitorLine pre c args term hpre hc hargs hterm]
    cases args with
    | nil => exact absurd rfl hne
    | cons a as => rfl
  refine ⟨?_, htok cmd hcmd, ?_, ?_, ?_⟩
  · cases hk : appendLast (args.map quoted) term with
    | nil =>
      exact absurd hk (appendLast_ne_nil _ _ (by simpa using hne))
    | cons key val =>
      refine ⟨key, val, rfl, ?_, ?_⟩
      · rw [saveCommandValue_tokens, htok cmd hcmd, hk]
      · have hset : quoted (ascii "SET") = ascii "\"SET\"" := by decide
        have n1 : ¬ ascii "\"SET\"" = ascii "\"HSET\"" := by decide
        have n2 : ¬ ascii "\"SET\"" = ascii "\"HMSET\"" := by decide
        rw [saveCommandValue_tokens, htok (ascii "SET") (by decide), hk, hset]
        simp only [dispatch, n1, n2, if_false, if_true]
  · rw [appendLast_length, List.length_map]
  · intro i a hi ha
    apply appendLast_get_init
    · simpa using hi
    · simp [ha]
  · intro a ha
    have h := appendLast_get_last (args.map quoted) term (quoted a) (by simp [ha])
    simpa using h

/-- Claim C13 as amended, at the line `1634 [0 127.0.0.1:1] "SET" "foo" "bar"`: the two
tokens handed on are `"foo"` and `"bar"` followed by the line terminator. -/
theorem C13_witness :
    rbracket ∉ ascii "1634 [0 127.0.0.1:1" ∧
    ∃ key val,
      appendLast ([ascii "foo", ascii "bar"].map quoted) (ascii "\r\n") = key :: val ∧
      saveCommandValue (monitorLine (ascii "1634 [0 127.0.0.1:1") (ascii "SET")
          [ascii "foo", ascii "bar"] (ascii "\r\n"))
        = some (dispatch (quoted (ascii "SET")) key val) ∧
      saveCommandValue (monitorLine (ascii "1634 [0 127.0.0.1:1") (ascii "SET")
          [ascii "foo", ascii "bar"] (ascii "\r\n"))
        = some [Printed.set (ascii "\"SET\"") key val] :=
  ⟨by decide,
    (C13_tokens_without_spaces (ascii "1634 [0 127.0.0.1:1") (ascii "SET")
      [ascii "foo", ascii "bar"] (ascii "\r\n") (by decide) (by decide) (by decide)
      (by decide) (by decide)).1⟩

/-- Claim C13 fails when an argument holds a space: the two arguments `foo` and
`hello world` come out as three tokens, the second argument cut at its space. -/
theorem C13_counterexample :
    monitorLine (ascii "1634 [0 127.0.0.1:1") (ascii "SET") [ascii "foo", ascii "hello world"]
        (ascii "\r\n")
      = ascii "1634 [0 127.0.0.1:1] \"SET\" \"foo\" \"hello world\"\r\n" ∧
    dquote ∉ ascii "foo" ∧ dquote ∉ ascii "hello world" ∧
    commandTokens (ascii "1634 [0 127.0.0.1:1] \"SET\" \"foo\" \"hello world\"\r\n")
      = some [ascii "\"SET\"", ascii "\"foo\"", ascii "\"hello", ascii "world\"\r\n"] ∧
    saveCommandValue (ascii "1634 [0 127.0.0.1:1] \"SET\" \"foo\" \"hello world\"\r\n")
      = some [Printed.set (ascii "\"SET\"") (ascii "\"foo\"")
          [ascii "\"hello", ascii "world\"\r\n"]] ∧
    [ascii "\"foo\"", ascii "\"hello", ascii "world\"\r\n"]
      ≠ [quoted (ascii "foo"), quoted (ascii "hello world")] := by
  decide

theorem pairsOf_fields : ∀ (l : List GoString) (r : KeyVal), r ∈ pairsOf l → r.Key ∈ l ∧ r.Val ∈ l
  | [], r => by simp [pairsOf]
  | [_], r => by simp [pairsOf]
  | a :: b :: rest, r => by
    intro h
    simp only [pairsOf, List.mem_cons] at h
    rcases h with h | h
    · subst h
      simp
    · have := pairsOf_fields rest r h
      exact ⟨List.mem_cons_of_mem _ (List.mem_cons_of_mem _ this.1),
        List.mem_cons_of_mem _ (List.mem_cons_of_mem _ this.2)⟩

theorem triplesOf_fields : ∀ (l : List GoString) (r : GeoVal),
    r ∈ triplesOf l → r.Long ∈ l ∧ r.Lat ∈ l ∧ r.Member ∈ l
  | [], r => by simp [triplesOf]
  | [_], r => by simp [triplesOf]
  | [_, _], r => by simp [triplesOf]
  | a :: b :: c :: rest, r => by
    intro h
    simp only [triplesOf, List.mem_cons] at h
    rcases h with h | h
    · subst h
      simp
    · have := triplesOf_fields rest r h
      exact ⟨List.mem_cons_of_mem _ (List.mem_cons_of_mem _ (List.mem_cons_of_mem _ this.1)),
        List.mem_cons_of_mem _ (List.mem_cons_of_mem _ (List.mem_cons_of_mem _ this.2.1)),
        List.mem_cons_of_mem _ (List.mem_cons_of_mem _ (List.mem_cons_of_mem _ this.2.2))⟩

/-- What `saveCommandValue` hands to the dispatch on a line of the documented form with a
key and at least one value, none holding a space. -/
theorem saveCommandValue_dispatch (pre cmd key v : GoString) (vs : List GoString)
    (term : GoString) (hpre : rbracket ∉ pre) (hcmd : space ∉ cmd) (hk : space ∉ key)
    (hv : ∀ a ∈ v :: vs, space ∉ a) (hterm : space ∉ term) :
    saveCommandValue (monitorLine pre cmd (key :: v :: vs) term)
      = some (dispatch (quoted cmd) (quoted key) (appendLast ((v :: vs).map quoted) term)) := by
  have hargs : ∀ a ∈ key :: v :: vs, space ∉ a := by
    intro a ha
    rcases List.mem_cons.1 ha with h | h
    · rw [h]
      exact hk
    · exact hv a h
  rw [saveCommandValue_tokens, commandTokens_monitorLine pre cmd _ term hpre hcmd hargs hterm]
  rfl

/-- Claim C14 as amended: on an `HSET`, `HMSET` or `GEOADD` line of the documented form
with a key and at least one value, none holding a space, the records are built from the
value tokens as they stand in the line: every field is a value in its double quotes, the
last token of the line also followed by what ends the line. -/
theorem C14_fields_keep_quotes (pre key v : GoString) (vs : List GoString) (term : GoString)
    (hpre : rbracket ∉ pre) (hk : space ∉ key) (hv : ∀ a ∈ v :: vs, space ∉ a)
    (hterm : space ∉ term) :
    saveCommandValue (monitorLine pre (ascii "HSET") (key :: v :: vs) term)
      = some [Printed.hash (quoted key) (pairsOf (appendLast ((v :: vs).map quoted) term))] ∧
    saveCommandValue (monitorLine pre (ascii "HMSET") (key :: v :: vs) term)
      = some [Printed.hash (quoted key) (pairsOf (appendLast ((v :: vs).map quoted) term))] ∧
    saveCommandValue (monitorLine pre (ascii "GEOADD") (key :: v :: vs) term)
      = some [Printed.geo (quoted key) (triplesOf (appendLast ((v :: vs).map quoted) term))] ∧
    (∀ r ∈ pairsOf (appendLast ((v :: vs).map quoted) term),
      (∃ a ∈ v :: vs, r.Key = quoted a ∨ r.Key = quoted a ++ term) ∧
      (∃ a ∈ v :: vs, r.Val = quoted a ∨ r.Val = quoted a ++ term)) ∧
    (∀ r ∈ triplesOf (appendLast ((v :: vs).map quoted) term),
      (∃ a ∈ v :: vs, r.Long = quoted a ∨ r.Long = quoted a ++ term) ∧
      (∃ a ∈ v :: vs, r.Lat = quoted a ∨ r.Lat = quoted a ++ term) ∧
      (∃ a ∈ v :: vs, r.Member = quoted a ∨ r.Member = quoted a ++ term)) := by
  have hne : appendLast ((v :: vs).map quoted) term ≠ [] :=
    appendLast_ne_nil _ _ (by simp)
  have htok : ∀ t ∈ appendLast ((v :: vs).map quoted) term,
      ∃ a ∈ v :: vs, t = quoted a ∨ t = quoted a ++ term := by
    intro t ht
    obtain ⟨q, hq, e⟩ := mem_appendLast _ _ t ht
    obtain ⟨a, ha, e2⟩ := List.mem_map.1 hq
    exact ⟨a, ha, by rw [e2]; exact e⟩
  have h1 : quoted (ascii "HSET") = ascii "\"HSET\"" := by decide
  have h2 : quoted (ascii "HMSET") = ascii "\"HMSET\"" := by decide
  have h3 : quoted (ascii "GEOADD") = ascii "\"GEOADD\"" := by decide
  have n1 : ¬ ascii "\"HMSET\"" = ascii "\"HSET\"" := by decide
  have n2 : ¬ ascii "\"GEOADD\"" = ascii "\"HSET\"" := by decide
  have n3 : ¬ ascii "\"GEOADD\"" = ascii "\"HMSET\"" := by decide
  have n4 : ¬ ascii "\"GEOADD\"" = ascii "\"SET\"" := by decide
  refine ⟨?_, ?_, ?_, ?_, ?_⟩
  · rw [saveCommandValue_dispatch pre _ key v vs term hpre (by decide) hk hv hterm, h1]
    simp only [dispatch, if_true]
    rw [saveHashKind_eq _ _ hne]
  · rw [saveCommandValue_dispatch pre _ key v vs term hpre (by decide) hk hv hterm, h2]
    simp only [dispatch, n1, if_false, if_true]
    rw [saveHashKind_eq _ _ hne]
  · rw [saveCommandValue_dispatch pre _ key v vs term hpre (by decide) hk hv hterm, h3]
    simp only [dispatch, n2, n3, n4, if_false, if_true]
    rw [saveGeoKind_eq _ _ hne]
  · intro r hr
    have := pairsOf_fields _ r hr
    exact ⟨htok _ this.1, htok _ this.2⟩
  · intro r hr
    have := triplesOf_fields _ r hr
    exact ⟨htok _ this.1, htok _ this.2.1, htok _ this.2.2⟩

theorem C14_witness :
    rbracket ∉ ascii "1634 [0 127.0.0.1:1" ∧
    saveCommandValue (monitorLine (ascii "1634 [0 127.0.0.1:1") (ascii "HSET")
        [ascii "user", ascii "name", ascii "bob"] (ascii "\r\n"))
      = some [Printed.hash (quoted (ascii "user"))
          (pairsOf (appendLast ([ascii "name", ascii "bob"].map quoted) (ascii "\r\n")))] :=
  ⟨by decide,
    (C14_fields_keep_quotes (ascii "1634 [0 127.0.0.1:1") (ascii "user") (ascii "name")
      [ascii "bob"] (ascii "\r\n") (by decide) (by decide) (by decide) (by decide)).1⟩

/-- Claim C14 fails at an `HSET` line as it comes off the wire: the record holds `"name"`
and `"bob"` with their quotes, the value also with the line terminator; likewise the
`SET` line of the claim has the tokens `"foo"` and `"bar"` with quotes and terminator. -/
theorem C14_counterexample :
    saveCommandValue (ascii "1634 [0 127.0.0.1:1] \"HSET\" \"user\" \"name\" \"bob\"\r\n")
      = some [Printed.hash (ascii "\"user\"")
          [{ Key := ascii "\"name\"", Val := ascii "\"bob\"\r\n" }]] ∧
    ({ Key := ascii "\"name\"", Val := ascii "\"bob\"\r\n" } : KeyVal)
      ≠ { Key := ascii "name", Val := ascii "bob" } ∧
    ascii "\"name\"" ≠ ascii "name" ∧ ascii "\"bob\"\r\n" ≠ ascii "bob" ∧
    saveCommandValue (ascii "1634 [0 127.0.0.1:1] \"SET\" \"foo\" \"bar\"\r\n")
      = some [Printed.set (ascii "\"SET\"") (ascii "\"foo\"") [ascii "\"bar\"\r\n"]] ∧
    saveCommandValue (ascii "1634 [0 127.0.0.1:1] \"SET\" \"foo\" \"bar\"")
      = some [Printed.set (ascii "\"SET\"") (ascii "\"foo\"") [ascii "\"bar\""]] ∧
    ascii "\"foo\"" ≠ ascii "foo" ∧ ascii "\"bar\"" ≠ ascii "bar" := by
  decide

/-! ## The effect of a render and the invariants -/

/-- Claim C16 as amended: a `renderStats` that prints the placeholder leaves `Slice` as it
was; a `renderStats` that finds data stores the sorted slice: afterwards `Slice` holds the
same entries, rearranged so that the counts do not increase, and that stored order is the
order of the lines the call printed. -/
theorem C16_render_stores_sorted_slice (srt : SortFn) (up : UpperFn) (c : SortContract srt)
    (s : Stats) :
    (¬ (s.HasData = true ∧ s.Dirty = false) → (renderStats srt up s).1.Slice = s.Slice) ∧
    (s.HasData = true → s.Dirty = false →
      (renderStats srt up s).1.Slice.Perm s.Slice ∧
      (renderStats srt up s).1.entries.Perm s.entries ∧
      (renderStats srt up s).1.entries.Pairwise (fun a b => b.2 ≤ a.2) ∧
      (renderStats srt up s).2
        = printRows up (renderStats srt up s).1.heap 0 (renderStats srt up s).1.Slice) := by
  constructor
  · intro h
    have : (!s.HasData || s.Dirty) = true := by
      cases hd : s.HasData <;> cases dd : s.Dirty <;> simp_all
    simp [renderStats, this]
  · intro h d
    rw [render_data srt s h d]
    refine ⟨c.perm _ _, (c.perm _ _).map _, ?_, rfl⟩
    simp only [Stats.entries]
    rw [List.pairwise_map]
    exact sorted_desc srt c s.heap s.Slice

theorem C16_witness :
    SortContract insertionSort ∧
    (renderStats insertionSort toUpperASCII
        ((NewStats.Increment (ascii "B")).Increment (ascii "A"))).1.Slice.Perm
      ((NewStats.Increment (ascii "B")).Increment (ascii "A")).Slice :=
  ⟨insertionSort_contract,
    ((C16_render_stores_sorted_slice insertionSort toUpperASCII insertionSort_contract
      ((NewStats.Increment (ascii "B")).Increment (ascii "A"))).2 (by decide) (by decide)).1⟩

/-- Claim C16 fails after the increments `B, A, A`: `Slice` lists `B` then `A` before the
render and `A` then `B` after it. -/
theorem C16_counterexample :
    Reachable (((NewStats.Increment (ascii "B")).Increment (ascii "A")).Increment (ascii "A")) ∧
    (((NewStats.Increment (ascii "B")).Increment (ascii "A")).Increment (ascii "A")).entries
      = [(ascii "B", 1), (ascii "A", 2)] ∧
    (renderStats insertionSort toUpperASCII
      (((NewStats.Increment (ascii "B")).Increment (ascii "A")).Increment (ascii "A"))).1.entries
      = [(ascii "A", 2), (ascii "B", 1)] ∧
    (renderStats insertionSort toUpperASCII
      (((NewStats.Increment (ascii "B")).Increment (ascii "A")).Increment (ascii "A"))).1.Slice
      ≠ (((NewStats.Increment (ascii "B")).Increment (ascii "A")).Increment (ascii "A")).Slice :=
  ⟨Reachable.increment _ _ (Reachable.increment _ _ (Reachable.increment _ _ Reachable.init)),
    by decide, by decide, by decide⟩

theorem printRows_no_placeholder (up : UpperFn) (heap : List CommandInfo) (l : List Nat) :
    ∀ (i : Nat), Row.placeholder ∉ printRows up heap i l := by
  induction l with
  | nil => intro i; simp [printRows]
  | cons p ps ih =>
    intro i
    simp only [printRows]
    split
    · simp
    · simp only [List.mem_cons, not_or]
      exact ⟨by simp, ih (i + 1)⟩

/-- Claim C17 (state effect of a render): `renderStats` sets `Dirty` when it finds data
(`HasData` set and `Dirty` clear on entry) and prints entry lines only; otherwise it
prints the placeholder line and leaves the state, `Dirty` included, as it was; in both
cases the records, the map, every count and `HasData` are as before the call. -/
theorem C17_render_state_effect (srt : SortFn) (up : UpperFn) (s : Stats) :
    (s.HasData = true ∧ s.Dirty = false →
      (renderStats srt up s).1.Dirty = true ∧ Row.placeholder ∉ (renderStats srt up s).2) ∧
    (¬ (s.HasData = true ∧ s.Dirty = false) →
      (renderStats srt up s).2 = [Row.placeholder] ∧ (renderStats srt up s).1 = s) ∧
    (renderStats srt up s).1.heap = s.heap ∧
    (renderStats srt up s).1.Data = s.Data ∧
    (∀ n, (renderStats srt up s).1.count n = s.count n) ∧
    (renderStats srt up s).1.HasData = s.HasData := by
  refine ⟨?_, ?_, render_heap srt s, render_Data srt s, ?_, render_HasData srt s⟩
  · rintro ⟨h, d⟩
    rw [render_data srt s h d]
    exact ⟨rfl, printRows_no_placeholder up _ _ 0⟩
  · intro h
    have : (!s.HasData || s.Dirty) = true := by
      cases hd : s.HasData <;> cases dd : s.Dirty <;> simp_all
    simp [renderStats, this]
  · intro n
    simp only [Stats.count, render_heap, render_Data]

theorem C17_witness :
    (renderStats insertionSort toUpperASCII (NewStats.Increment (ascii "A"))).1.Dirty = true ∧
    (renderStats insertionSort toUpperASCII NewStats).2 = [Row.placeholder] ∧
    (renderStats insertionSort toUpperASCII
      (renderStats insertionSort toUpperASCII (NewStats.Increment (ascii "A"))).1).2
      = [Row.placeholder] :=
  ⟨((C17_render_state_effect insertionSort toUpperASCII (NewStats.Increment (ascii "A"))).1
      ⟨by decide, by decide⟩).1,
    ((C17_render_state_effect insertionSort toUpperASCII NewStats).2.1 (by decide)).1,
    ((C17_render_state_effect insertionSort toUpperASCII
      (renderStats insertionSort toUpperASCII (NewStats.Increment (ascii "A"))).1).2.1
      (by decide)).1⟩

theorem dataFrom_fst (k : Nat) (h : List CommandInfo) :
    (dataFrom k h).map Prod.fst = h.map CommandInfo.Name := by
  induction h generalizing k with
  | nil => rfl
  | cons a t ih => simp [dataFrom, ih]

theorem dataFrom_length (k : Nat) (h : List CommandInfo) : (dataFrom k h).length = h.length := by
  induction h generalizing k with
  | nil => rfl
  | cons a t ih => simp [dataFrom, ih]

/-- Under the invariant the map sends the name of a record to the pointer to it. -/
theorem mapGet_deref (s : Stats) (w : s.WF) (p : Nat) (hp : p < s.heap.length) :
    mapGet s.Data (deref s.heap p).Name = some p := by
  have hm : (deref s.heap p).Name ∈ s.heap.map CommandInfo.Name :=
    List.mem_map_of_mem _ (deref_mem s.heap p hp)
  cases e : mapGet s.Data (deref s.heap p).Name with
  | none =>
    rw [w.1] at e
    exact absurd hm ((mapGet_dataFrom_none 0 s.heap _).1 e)
  | some q =>
    have e2 := e
    rw [w.1] at e2
    obtain ⟨_, h2, h3, _⟩ := mapGet_dataFrom_some 0 s.heap _ q e2
    simp only [Nat.zero_add, Nat.sub_zero] at h2 h3
    have hd : deref s.heap q = s.heap.getD q { Name := [], Count := 0 } := rfl
    rw [← hd] at h3
    rw [deref_name_inj s.heap w.2.1 q p h2 hp h3]

/-- Claim C18 (container consistency): in every reachable state the names of the entries
of `Slice` are pairwise distinct, they are exactly the keys of `Data`, the record `Data`
holds under a key carries that key as its name, and `Data` and `Slice` refer to the same
records: the pointer `Data` holds for a name occurs in `Slice`, exactly once, and every
pointer of `Slice` is the one `Data` holds for the name of its record. -/
theorem C18_container_consistency (s : Stats) (r : Reachable s) :
    (s.entries.map Prod.fst).Nodup ∧
    (∀ n, n ∈ s.entries.map Prod.fst ↔ n ∈ s.Data.map Prod.fst) ∧
    (s.Data.map Prod.fst).Nodup ∧
    (∀ n p, mapGet s.Data n = some p →
      (deref s.heap p).Name = n ∧ p ∈ s.Slice ∧ s.Slice.count p = 1 ∧
      s.count n = (deref s.heap p).Count) ∧
    (∀ p ∈ s.Slice, mapGet s.Data (deref s.heap p).Name = some p) ∧
    s.Slice.Nodup ∧ s.Slice.length = s.Data.length := by
  have w := r.inv.1
  obtain ⟨w1, w2, w3⟩ := w
  have hnd : s.Slice.Nodup := w3.nodup_iff.2 (List.nodup_range _)
  have hlt : ∀ p ∈ s.Slice, p < s.heap.length := fun p hp => List.mem_range.1 (w3.mem_iff.1 hp)
  have hnames : s.entries.map Prod.fst = s.Slice.map (fun p => (deref s.heap p).Name) := by
    simp [Stats.entries, Function.comp_def]
  have hkeys : s.Data.map Prod.fst = s.heap.map CommandInfo.Name := by
    rw [w1, dataFrom_fst]
  refine ⟨?_, ?_, ?_, ?_, ?_, hnd, ?_⟩
  · rw [hnames]
    apply List.Nodup.map_on _ hnd
    intro p hp q hq e
    exact deref_name_inj s.heap w2 p q (hlt p hp) (hlt q hq) e
  · intro n
    rw [hnames, hkeys]
    constructor
    · intro h
      obtain ⟨p, hp, e⟩ := List.mem_map.1 h
      rw [← e]
      exact List.mem_map_of_mem _ (deref_mem s.heap p (hlt p hp))
    · intro h
      obtain ⟨p, hp, e⟩ := exists_deref_of_mem s.heap n h
      rw [← e]
      exact List.mem_map.2 ⟨p, w3.mem_iff.2 (List.mem_range.2 hp), rfl⟩
  · rw [hkeys]
    exact w2
  · intro n p e
    have e2 := e
    rw [w1] at e2
    obtain ⟨_, h2, h3, _⟩ := mapGet_dataFrom_some 0 s.heap n p e2
    simp only [Nat.zero_add, Nat.sub_zero] at h2 h3
    have hmem : p ∈ s.Slice := w3.mem_iff.2 (List.mem_range.2 h2)
    refine ⟨h3, hmem, List.count_eq_one_of_mem hnd hmem, ?_⟩
    simp [Stats.count, e]
  · intro p hp
    exact mapGet_deref s ⟨w1, w2, w3⟩ p (hlt p hp)
  · rw [w3.length_eq, List.length_range, w1, dataFrom_length]

theorem C18_witness :
    Reachable (renderStats insertionSort toUpperASCII
      (((NewStats.Increment (ascii "B")).Increment (ascii "A")).Increment (ascii "A"))).1 ∧
    ((renderStats insertionSort toUpperASCII
      (((NewStats.Increment (ascii "B")).Increment (ascii "A")).Increment
        (ascii "A"))).1.entries.map Prod.fst).Nodup :=
  ⟨Reachable.render insertionSort _ insertionSort_contract
      (Reachable.increment _ _ (Reachable.increment _ _ (Reachable.increment _ _ Reachable.init))),
    (C18_container_consistency _
      (Reachable.render insertionSort _ insertionSort_contract
        (Reachable.increment _ _
          (Reachable.increment _ _ (Reachable.increment _ _ Reachable.init))))).1⟩

theorem ReachableExact.reachable {s : Stats} (r : ReachableExact s) : Reachable s := by
  induction r with
  | init => exact Reachable.init
  | increment s x _ _ ih => exact Reachable.increment s x ih
  | clean s _ ih => exact Reachable.clean s ih
  | render srt s c _ ih => exact Reachable.render srt s c ih

/-- While no count overflows, the counts are not negative, `HasData` tells whether some
count is positive, and `Dirty` is set only with `HasData`. -/
theorem ReachableExact.counts_inv {s : Stats} (r : ReachableExact s) :
    (∀ n, 0 ≤ heapCount s.heap n) ∧ (s.HasData = true ↔ ∃ n, 0 < heapCount s.heap n) ∧
      (s.Dirty = true → s.HasData = true) := by
  induction r with
  | init =>
    refine ⟨fun n => by simp [NewStats, heapCount], ?_, by simp [NewStats]⟩
    simp [NewStats, heapCount]
  | increment s x r hlt ih =>
    have w := r.reachable.inv.1
    obtain ⟨i1, _, _⟩ := ih
    rw [count_eq_heapCount _ w] at hlt
    have hw : wrapInt64 (heapCount s.heap x + 1) = heapCount s.heap x + 1 := by
      have := i1 x
      apply wrapInt64_id <;> omega
    refine ⟨?_, ?_, ?_⟩
    · intro n
      rw [Increment_heapCount s x n w]
      split
      · rw [hw]
        have := i1 x
        omega
      · exact i1 n
    · simp only [Increment_HasData, true_iff]
      refine ⟨x, ?_⟩
      rw [Increment_heapCount s x x w]
      simp only [if_true, hw]
      have := i1 x
      omega
    · intro _
      exact Increment_HasData s x
  | clean s r ih =>
    have w := r.reachable.inv.1
    cases d : s.Dirty with
    | false =>
      rw [Clean_clean s d]
      exact ih
    | true =>
      rw [Clean_dirty s w d]
      refine ⟨fun n => by simp [heapCount_map_zero], ?_, by simp⟩
      simp [heapCount_map_zero]
  | @render srt up s c r ih =>
    obtain ⟨i1, i2, i3⟩ := ih
    refine ⟨?_, ?_, ?_⟩
    · intro n
      rw [render_heap]
      exact i1 n
    · rw [render_heap, render_HasData]
      exact i2
    · intro hd
      rw [render_HasData]
      cases h : s.HasData with
      | true => rfl
      | false =>
        have : (renderStats srt up s).1 = s := by simp [renderStats, h]
        rw [this] at hd
        rw [← h]
        exact i3 hd

/-- Claim C19 (the `HasData` invariant, counts taken as unbounded integers): in every
state reached from `NewStats` by `Increment`, `Clean` and `renderStats` without a count
leaving the range of `int64`, every count is at least `0`, `HasData` is set if and only
if some entry has a count above `0`, and `Dirty` is set only when `HasData` is. -/
theorem C19_hasdata_invariant (s : Stats) (r : ReachableExact s) :
    (∀ e ∈ s.entries, 0 ≤ e.2) ∧
    (∀ n, 0 ≤ s.count n) ∧
    (s.HasData = true ↔ ∃ e ∈ s.entries, 0 < e.2) ∧
    (s.Dirty = true → s.HasData = true) := by
  obtain ⟨i1, i2, i3⟩ := r.counts_inv
  have w := r.reachable.inv.1
  have hlt : ∀ p ∈ s.Slice, p < s.heap.length := fun p hp =>
    List.mem_range.1 (w.2.2.mem_iff.1 hp)
  have hent : ∀ e ∈ s.entries, e.2 = heapCount s.heap e.1 := by
    intro e he
    simp only [Stats.entries, List.mem_map] at he
    obtain ⟨p, hp, rfl⟩ := he
    exact (heapCount_deref s.heap w.2.1 p (hlt p hp)).symm
  refine ⟨?_, ?_, ?_, i3⟩
  · intro e he
    rw [hent e he]
    exact i1 _
  · intro n
    rw [count_eq_heapCount _ w]
    exact i1 n
  · rw [i2]
    constructor
    · rintro ⟨n, hn⟩
      have hm : n ∈ s.heap.map CommandInfo.Name := by
        by_contra hc
        rw [heapCount_not_mem _ _ hc] at hn
        omega
      obtain ⟨p, hp, e⟩ := exists_deref_of_mem s.heap n hm
      refine ⟨((deref s.heap p).Name, (deref s.heap p).Count), ?_, ?_⟩
      · simp only [Stats.entries, List.mem_map]
        exact ⟨p, w.2.2.mem_iff.2 (List.mem_range.2 hp), rfl⟩
      · simp only
        rw [← heapCount_deref s.heap w.2.1 p hp, e]
        exact hn
    · rintro ⟨e, he, hpos⟩
      exact ⟨e.1, by rw [← hent e he]; exact hpos⟩

theorem C19_witness :
    ReachableExact (renderStats insertionSort toUpperASCII (NewStats.Increment (ascii "A"))).1 ∧
    ((renderStats insertionSort toUpperASCII (NewStats.Increment (ascii "A"))).1.Dirty = true →
      (renderStats insertionSort toUpperASCII (NewStats.Increment (ascii "A"))).1.HasData = true) :=
  ⟨ReachableExact.render insertionSort _ insertionSort_contract
      (ReachableExact.increment _ _ ReachableExact.init (by decide)),
    (C19_hasdata_invariant
      (renderStats insertionSort toUpperASCII (NewStats.Increment (ascii "A"))).1
      (ReachableExact.render insertionSort _ insertionSort_contract
        (ReachableExact.increment _ _ ReachableExact.init (by decide)))).2.2.2⟩

end RedisMonitor
